import Mathlib

/-!
Formal model of `snapbtr.py` (github.com/hp197/snapbtr), a utility that
maintains a thinning set of timestamped btrfs snapshots.

Embedding conventions:

* Identifiers are `String`s; `dirs` collections are `List String`.
* `time.strptime(s, '%Y%m%d-%H%M%S')` is modelled by `strptimeDF`.  CPython's
  `_strptime` compiles this format to the anchored regex
  `(\d\d\d\d)(1[0-2]|0[1-9]|[1-9])(3[01]|[12]\d|0[1-9]|[1-9])-`
  `(2[0-3]|[0-1]\d|\d)([0-5]\d|\d)(6[0-1]|[0-5]\d|\d)`
  matched with left-to-right backtracking, and fails unless the whole string
  is consumed ("unconverted data remains").  `strptimeDF` reproduces exactly
  that search: each field yields its possible (value, rest) matches in
  regex-preference order and the first complete parse wins.
* `time.mktime` is modelled by `epochSecs`, seconds since the Unix epoch at
  UTC offset zero (the script documents snapshot names as GMT instants).
  C `mktime` normalises out-of-range struct fields (e.g. April 31 or
  second 60) by carrying excess into the larger unit, which is exactly what
  the additive day/second arithmetic of `epochSecs` does.
* Python floats are modelled as real numbers: `math.exp` is `Real.exp` and
  `math.ceil` is `Int.ceil`.
-/

/-- Numeric value of a digit character, `ord(c) - ord('0')` as produced by
`int()` on a matched digit group. -/
def dval (c : Char) : Nat := c.toNat - 48

/-- Match of a two-character regex alternative whose characters satisfy `p1`
and `p2`; yields the two-digit value and the unconsumed rest. -/
def alt2 (p1 p2 : Char → Bool) : List Char → List (Nat × List Char)
  | a :: b :: r => if p1 a && p2 b then [(dval a * 10 + dval b, r)] else []
  | _ => []

/-- Match of a one-character regex alternative satisfying `p`. -/
def alt1 (p : Char → Bool) : List Char → List (Nat × List Char)
  | a :: r => if p a then [(dval a, r)] else []
  | _ => []

/-- Matches of `%Y`, compiled by CPython to `\d\d\d\d` (exactly four digits). -/
def altsY : List Char → List (Nat × List Char)
  | a :: b :: c :: d :: r =>
    if a.isDigit && b.isDigit && c.isDigit && d.isDigit then
      [(((dval a * 10 + dval b) * 10 + dval c) * 10 + dval d, r)]
    else []
  | _ => []

/-- Matches of `%m`, compiled to `1[0-2]|0[1-9]|[1-9]`, in preference order. -/
def altsMon (cs : List Char) : List (Nat × List Char) :=
  alt2 (fun c => c == '1') (fun c => decide ('0' ≤ c) && decide (c ≤ '2')) cs ++
  alt2 (fun c => c == '0') (fun c => decide ('1' ≤ c) && decide (c ≤ '9')) cs ++
  alt1 (fun c => decide ('1' ≤ c) && decide (c ≤ '9')) cs

/-- Matches of `%d`, compiled to `3[01]|[12]\d|0[1-9]|[1-9]`. -/
def altsDay (cs : List Char) : List (Nat × List Char) :=
  alt2 (fun c => c == '3') (fun c => c == '0' || c == '1') cs ++
  alt2 (fun c => c == '1' || c == '2') Char.isDigit cs ++
  alt2 (fun c => c == '0') (fun c => decide ('1' ≤ c) && decide (c ≤ '9')) cs ++
  alt1 (fun c => decide ('1' ≤ c) && decide (c ≤ '9')) cs

/-- Matches of `%H`, compiled to `2[0-3]|[0-1]\d|\d`. -/
def altsHour (cs : List Char) : List (Nat × List Char) :=
  alt2 (fun c => c == '2') (fun c => decide ('0' ≤ c) && decide (c ≤ '3')) cs ++
  alt2 (fun c => c == '0' || c == '1') Char.isDigit cs ++
  alt1 Char.isDigit cs

/-- Matches of `%M`, compiled to `[0-5]\d|\d`. -/
def altsMin (cs : List Char) : List (Nat × List Char) :=
  alt2 (fun c => decide ('0' ≤ c) && decide (c ≤ '5')) Char.isDigit cs ++
  alt1 Char.isDigit cs

/-- Matches of `%S`, compiled to `6[0-1]|[0-5]\d|\d` (60 and 61 admit leap
seconds). -/
def altsSec (cs : List Char) : List (Nat × List Char) :=
  alt2 (fun c => c == '6') (fun c => c == '0' || c == '1') cs ++
  alt2 (fun c => decide ('0' ≤ c) && decide (c ≤ '5')) Char.isDigit cs ++
  alt1 Char.isDigit cs

/-- Match of the literal `-` between the date and time parts. -/
def altsDash : List Char → List (List Char)
  | a :: r => if a == '-' then [r] else []
  | _ => []

/-- Broken-down time as produced by `time.strptime`: the six captured fields
of the format `%Y%m%d-%H%M%S`. -/
structure TimeFields where
  year : Nat
  mon : Nat
  mday : Nat
  hour : Nat
  minute : Nat
  sec : Nat
deriving DecidableEq

/-- Model of `time.strptime(s, DATE_FORMAT)`: depth-first backtracking over
the field alternatives, requiring the whole input to be consumed; `none` is a
raised `ValueError`. -/
def strptimeDF (cs : List Char) : Option TimeFields :=
  (altsY cs).findSome? fun yr =>
  (altsMon yr.2).findSome? fun mo =>
  (altsDay mo.2).findSome? fun dy =>
  (altsDash dy.2).findSome? fun r4 =>
  (altsHour r4).findSome? fun hr =>
  (altsMin hr.2).findSome? fun mi =>
  (altsSec mi.2).findSome? fun se =>
  if se.2 = [] then some ⟨yr.1, mo.1, dy.1, hr.1, mi.1, se.1⟩ else none

/-- Model of `os.path.split(x)[1]`: the part of the path after the last
slash. -/
def basename (s : String) : String :=
  ⟨(s.data.reverse.takeWhile (fun c => !(c == '/'))).reverse⟩

/-- Gregorian leap-year test, as used by `mktime`'s calendar. -/
def isLeap (y : Nat) : Bool := (y % 4 == 0 && y % 100 != 0) || y % 400 == 0

/-- Number of leap years among `0, 1, ..., y - 1` (proleptic Gregorian). -/
def leapsBefore (y : Nat) : Nat := (y + 3) / 4 - (y + 99) / 100 + (y + 399) / 400

/-- Days from 0000-01-01 to the start of year `y`. -/
def daysBeforeYear (y : Nat) : Nat := 365 * y + leapsBefore y

/-- Days from January 1 to the start of month `m` in a non-leap year. -/
def cumMonthBase : Nat → Nat
  | 1 => 0 | 2 => 31 | 3 => 59 | 4 => 90 | 5 => 120 | 6 => 151
  | 7 => 181 | 8 => 212 | 9 => 243 | 10 => 273 | 11 => 304 | 12 => 334
  | _ => 0

/-- Days from January 1 to the start of month `m`, adjusted for leap years. -/
def cumMonth (leap : Bool) (m : Nat) : Nat :=
  cumMonthBase m + (if leap = true ∧ 3 ≤ m then 1 else 0)

/-- Length of month `m`. -/
def monthDays (leap : Bool) : Nat → Nat
  | 1 => 31 | 2 => if leap then 29 else 28 | 3 => 31 | 4 => 30 | 5 => 31
  | 6 => 30 | 7 => 31 | 8 => 31 | 9 => 30 | 10 => 31 | 11 => 30 | 12 => 31
  | _ => 0

/-- Days between the Unix epoch and the (normalised) date of `f`; 719528 is
the day number of 1970-01-01 counted from 0000-01-01. -/
def epochDays (f : TimeFields) : Int :=
  ((daysBeforeYear f.year + cumMonth (isLeap f.year) f.mon + (f.mday - 1) : Nat) : Int)
    - 719528

/-- Model of `time.mktime` on a `strptime` result, at UTC offset zero: the
epoch-second count of the broken-down time, normalising field overflow
additively exactly as C `mktime` does. -/
def epochSecs (f : TimeFields) : Int :=
  86400 * epochDays f + 3600 * (f.hour : Int) + 60 * (f.minute : Int) + (f.sec : Int)

/-- Parsing-and-decoding part of `timef`: the epoch instant of identifier
`x`, or `none` when `x` does not match `DATE_FORMAT` (in the source the
`except` clause turns the raised error into `None`). -/
def instant (x : String) : Option Int := (strptimeDF (basename x).data).map epochSecs


/-- Model of `TIME_SCALE = math.ceil(float((2**32)/math.log(2**32)))`, with
float arithmetic read as real arithmetic. -/
noncomputable def TIME_SCALE : ℝ := (⌈(2 ^ 32 : ℝ) / Real.log (2 ^ 32)⌉ : ℤ)

/-- Exponential part of `timef`: `math.exp(t / TIME_SCALE)`. -/
noncomputable def valueOfInstant (t : ℤ) : ℝ := Real.exp (t / TIME_SCALE)

/-- Model of `timef(x)`: the value of identifier `x`, or `None` for names
that do not parse. -/
noncomputable def timef (x : String) : Option ℝ := (instant x).map valueOfInstant

/-- Ordering used by Python's `sorted` on the 2-tuples `(value, name)`:
compare the float values first, fall back to the name strings on ties. -/
def pairLe (a b : ℝ × String) : Prop := a.1 < b.1 ∨ (a.1 = b.1 ∧ a.2 ≤ b.2)

noncomputable instance : DecidableRel pairLe := fun _ _ => Classical.propDecidable _

/-- Model of Python's `sorted` on `(value, name)` 2-tuples. -/
noncomputable def sortPairs (l : List (ℝ × String)) : List (ℝ × String) :=
  List.insertionSort pairLe l

/-- The `(value, name)` pairs of the parseable members of `dirs`.  In the
source the unparseable names carry `None`, which Python 2 sorts in front of
every float, and the `if xf` filter then drops them; filtering before
sorting yields the same list. -/
noncomputable def validPairs (dirs : List String) : List (ℝ × String) :=
  dirs.filterMap fun y => (timef y).map fun v => (v, y)

/-- Model of the `candidates` dict of `_sorted_value`: the `(name, value)`
pairs of all valid identifiers sorted ascending by `(value, name)`, with the
last (greatest) one held out by `all_but_last`.  The dict is an association
list; key lookup order never matters because each round re-sorts. -/
noncomputable def candidates0 (dirs : List String) : List (String × ℝ) :=
  ((sortPairs (validPairs dirs)).dropLast).map Prod.swap

/-- Model of the inner `poles` generator: all adjacent pairs of a list. -/
def poles {α : Type _} : List α → List (α × α)
  | a :: b :: r => (a, b) :: poles (b :: r)
  | _ => []

/-- Strict ordering of the 3-tuples `(loss, frm, to)` as compared by
Python's `min`. -/
def tripLt (a b : ℝ × String × String) : Prop :=
  a.1 < b.1 ∨ (a.1 = b.1 ∧ (a.2.1 < b.2.1 ∨ (a.2.1 = b.2.1 ∧ a.2.2 < b.2.2)))

noncomputable instance : DecidableRel tripLt := fun _ _ => Classical.propDecidable _

/-- Accumulator of Python's `min`: replace the current best exactly when a
later element is strictly smaller. -/
noncomputable def pyminAcc (a : ℝ × String × String) :
    List (ℝ × String × String) → ℝ × String × String
  | [] => a
  | x :: xs => pyminAcc (if tripLt x a then x else a) xs

/-- Model of `min(diffs)`; `none` is the `ValueError` on an empty sequence,
which is unreachable in `_sorted_value`. -/
noncomputable def pyminList : List (ℝ × String × String) → Option (ℝ × String × String)
  | [] => none
  | x :: xs => some (pyminAcc x xs)

/-- The `diffs` list of `_sorted_value`: `(to_tf - frm_tf, frm, to)` for
every adjacent pair of the re-sorted remaining candidates. -/
noncomputable def diffsOf (remain : List (ℝ × String)) : List (ℝ × String × String) :=
  (poles remain).map fun p => (p.2.1 - p.1.1, p.1.2, p.2.2)

/-- Model of `del candidates[mto]` on the association list. -/
def eraseKey (k : String) (c : List (String × ℝ)) : List (String × ℝ) :=
  c.eraseP fun p => p.1 == k

theorem pyminAcc_mem (a : ℝ × String × String) (l : List (ℝ × String × String)) :
    pyminAcc a l ∈ a :: l := by
  induction l generalizing a with
  | nil => simp [pyminAcc]
  | cons x xs ih =>
    rw [pyminAcc]
    rcases List.mem_cons.mp (ih (if tripLt x a then x else a)) with h | h
    · rw [h]
      split
      · exact List.mem_cons_of_mem _ (List.mem_cons_self _ _)
      · exact List.mem_cons_self _ _
    · exact List.mem_cons_of_mem _ (List.mem_cons_of_mem _ h)

theorem pyminList_eq_some {l : List (ℝ × String × String)}
    {m : ℝ × String × String} (h : pyminList l = some m) : m ∈ l := by
  cases l with
  | nil => simp [pyminList] at h
  | cons x xs =>
    rw [pyminList] at h
    injection h with h
    exact h ▸ pyminAcc_mem x xs

theorem snd_mem_of_mem_poles {α : Type _} :
    ∀ (l : List α) (p : α × α), p ∈ poles l → p.2 ∈ l
  | [], p, hp => by simp [poles] at hp
  | [a], p, hp => by simp [poles] at hp
  | a :: b :: r, p, hp => by
    rw [poles] at hp
    rcases List.mem_cons.mp hp with h | h
    · rw [h]; exact List.mem_cons_of_mem _ (List.mem_cons_self _ _)
    · exact List.mem_cons_of_mem _ (snd_mem_of_mem_poles (b :: r) p h)

theorem fst_mem_of_mem_poles {α : Type _} :
    ∀ (l : List α) (p : α × α), p ∈ poles l → p.1 ∈ l
  | [], p, hp => by simp [poles] at hp
  | [a], p, hp => by simp [poles] at hp
  | a :: b :: r, p, hp => by
    rw [poles] at hp
    rcases List.mem_cons.mp hp with h | h
    · rw [h]; exact List.mem_cons_self _ _
    · exact List.mem_cons_of_mem _ (fst_mem_of_mem_poles (b :: r) p h)

theorem poles_length {α : Type _} :
    ∀ l : List α, (poles l).length = l.length - 1
  | [] => by simp [poles]
  | [a] => by simp [poles]
  | a :: b :: r => by
    rw [poles]
    simp only [List.length_cons, poles_length (b :: r)]
    omega

theorem sortPairs_length (l : List (ℝ × String)) :
    (sortPairs l).length = l.length :=
  (List.perm_insertionSort pairLe l).length_eq

theorem exists_pymin_of_one_lt (c : List (String × ℝ)) (h : 1 < c.length) :
    ∃ m, pyminList (diffsOf (sortPairs (c.map Prod.swap))) = some m ∧
      (eraseKey m.2.2 c).length < c.length := by
  have hrl : (sortPairs (c.map Prod.swap)).length = c.length := by
    rw [sortPairs_length, List.length_map]
  have hdl : (diffsOf (sortPairs (c.map Prod.swap))).length = c.length - 1 := by
    unfold diffsOf
    rw [List.length_map, poles_length, hrl]
  have hpos : 0 < (diffsOf (sortPairs (c.map Prod.swap))).length := by omega
  obtain ⟨d, ds, hds⟩ := List.exists_cons_of_ne_nil (List.ne_nil_of_length_pos hpos)
  refine ⟨pyminAcc d ds, by rw [hds, pyminList], ?_⟩
  have hmem : pyminAcc d ds ∈ diffsOf (sortPairs (c.map Prod.swap)) := by
    rw [hds]; exact pyminAcc_mem d ds
  obtain ⟨p, hp, hpe⟩ := List.mem_map.mp hmem
  have hsnd : p.2 ∈ sortPairs (c.map Prod.swap) := snd_mem_of_mem_poles _ _ hp
  have hsnd2 : p.2 ∈ c.map Prod.swap := (List.perm_insertionSort pairLe _).mem_iff.mp hsnd
  obtain ⟨q, hq, hqe⟩ := List.mem_map.mp hsnd2
  have hkey : q.1 = (pyminAcc d ds).2.2 := by
    rw [← hpe]
    simp only [← hqe, Prod.swap]
  have : (eraseKey (pyminAcc d ds).2.2 c).length = c.length - 1 := by
    unfold eraseKey
    exact List.length_eraseP_of_mem hq (by simp [hkey])
  omega

/-- Model of the loop body of `_sorted_value` acting on the candidate set:
while more than one candidate remains, re-sort, score the adjacent pairs,
remove the minimum's `to` member and yield it; a final single candidate is
yielded unconditionally (on an empty dict the final `iterkeys().next()`
raises `StopIteration`, which ends a Python 2 generator, hence `[]`). -/
noncomputable def sortedValueLoop (c : List (String × ℝ)) : List String :=
  if h : 1 < c.length then
    match hm : pyminList (diffsOf (sortPairs (c.map Prod.swap))) with
    | none => []
    | some m => m.2.2 :: sortedValueLoop (eraseKey m.2.2 c)
  else
    match c with
    | [] => []
    | x :: _ => [x.1]
termination_by c.length
decreasing_by
  obtain ⟨m', hm', hlt⟩ := exists_pymin_of_one_lt c h
  rw [hm] at hm'
  injection hm' with hm'
  rw [hm']
  exact hlt

/-- Model of `sorted_value(dirs)`: empty input is returned as is, otherwise
the `_sorted_value` generator runs on the candidate set. -/
noncomputable def sorted_value (dirs : List String) : List String :=
  if dirs.length ≤ 0 then dirs else sortedValueLoop (candidates0 dirs)

/-- Byte-wise string ordering as used by Python's `sorted` on `str` (for
the ASCII snapshot names, identical to code-point order).  The decidability
witness is spelled out so that concrete sorts evaluate in the kernel. -/
def strLe (a b : String) : Prop := ¬ @LT.lt String String.instLT b a

instance strLe.instDec : DecidableRel strLe := fun a b =>
  match String.decLt b a with
  | Decidable.isTrue h => Decidable.isFalse (fun hn => hn h)
  | Decidable.isFalse h => Decidable.isTrue h

theorem strLe_iff_le (a b : String) : strLe a b ↔ a ≤ b := by
  constructor
  · intro h hc
    have h2 : List.Lex (· < ·) b.data a.data := String.lt_iff_toList_lt.mp hc
    exact h ((List.lt_iff_lex_lt _ _).mpr h2)
  · intro h hc
    have h2 : List.Lex (· < ·) b.data a.data := (List.lt_iff_lex_lt _ _).mp hc
    exact h (String.lt_iff_toList_lt.mpr h2)

instance strLe.instTrans : IsTrans String strLe :=
  ⟨fun a b c h1 h2 => (strLe_iff_le a c).mpr
    (le_trans ((strLe_iff_le a b).mp h1) ((strLe_iff_le b c).mp h2))⟩

instance strLe.instTotal : IsTotal String strLe :=
  ⟨fun a b => (le_total a b).imp (strLe_iff_le a b).mpr (strLe_iff_le b a).mpr⟩

instance strLe.instAntisymm : IsAntisymm String strLe :=
  ⟨fun a b h1 h2 => le_antisymm ((strLe_iff_le a b).mp h1) ((strLe_iff_le b a).mp h2)⟩

/-- Model of Python's `sorted` on lists of name strings. -/
def sortStr (l : List String) : List String :=
  List.insertionSort strLe l

/-- The ways a `cleandir` run can end.  The first two are the raised
exceptions ("No more directories to clean" / "No directories removed"); the
other four are the normal `break`s out of the loop. -/
inductive StopKind where
  | fatalEmpty
  | fatalNoProgress
  | keepBackups
  | maxRemoved
  | satisfied
  | nothingLeft
deriving DecidableEq

/-- Interface of the `operations` collaborator as consumed by `cleandir`:
`listdir`, `freespace` and `unsnap` acting on a backend state of type `B`.
All three are pure state functions; `unsnap` returns the updated state. -/
structure Ops (B : Type) where
  listdir : B → List String
  freespace : B → Int
  unsnap : B → String → B

/-- Mutable state of the `cleandir` loop: the backend, the decremented
`target_removed` counter, the two one-time trace flags and `last_dirs`. -/
structure LoopState (B : Type) where
  b : B
  tr : Option Int
  wasFsp : Option Bool
  wasBk : Option Bool
  lastDirs : List String

/-- Outcome of one iteration of the `cleandir` loop: either a `break` or
`raise` with the given kind, or one removal together with the updated loop
state. -/
inductive StepOut (B : Type) where
  | halt (k : StopKind)
  | go (victim : String) (s : LoopState B)

/-- The `do_del` voting of `cleandir` as a function of the configured
targets, the queried free space and the sorted listing length: the
free-space condition votes first, the backup-count condition second, and an
unsatisfied condition always overrides with `True`. -/
def doDelVote (tfsp tbk : Option Int) (fsp : Int) (dlen : Nat) : Option Bool :=
  let d1 : Option Bool :=
    match tfsp with
    | none => none
    | some f => if f ≤ fsp then some false else some true
  match tbk with
  | none => d1
  | some t => if (dlen : Int) ≤ t then (if d1 = none then some false else d1) else some true

/-- One-time trace flag update for a condition that is currently satisfied
(`was_above or was_above is None` sets it to `False`) or unsatisfied
(`None` becomes `True`). -/
def flagUpd (cond : Option Int → Bool) (t : Option Int) (was : Option Bool) : Option Bool :=
  match t with
  | none => was
  | some _ => if cond t then some false else (if was = none then some true else was)

/-- Tail of one `cleandir` iteration, after the `keep_backups` and
`target_removed` checks have passed: evaluate the free-space and
backup-count targets, break when no configured condition votes for
deletion, otherwise remove the first victim offered by `sorted_value`.  The
source queries `operations.freespace()` once and reuses the value; the
query is pure here, so re-reading it is equivalent. -/
noncomputable def cleanStepB {B : Type} (ops : Ops B) (tfsp tbk : Option Int)
    (dirs : List String) (s : LoopState B) : StepOut B :=
  let dlen := dirs.length
  let fsp := ops.freespace s.b
  let dd := doDelVote tfsp tbk fsp dlen
  let wf := flagUpd (fun t => match t with | some f => decide (f ≤ fsp) | none => false)
    tfsp s.wasFsp
  let wb := flagUpd (fun t => match t with | some tb => decide ((dlen : Int) ≤ tb) | none => false)
    tbk s.wasBk
  let s2 : LoopState B := { s with wasFsp := wf, wasBk := wb }
  if dd ≠ some true then StepOut.halt StopKind.satisfied
  else
    match (sorted_value dirs).head? with
    | none => StepOut.halt StopKind.nothingLeft
    | some v => StepOut.go v { s2 with b := ops.unsnap s2.b v }

/-- One iteration of the `cleandir` loop, in source order: list and sort,
fatal stop on an empty or unchanged listing, record `last_dirs`, clean stop
at the `keep_backups` floor, clean stop when `target_removed` is exhausted
(otherwise decrement it), then the target evaluation of `cleanStepB`. -/
noncomputable def cleanStep {B : Type} (ops : Ops B) (keep tfsp tbk : Option Int)
    (s : LoopState B) : StepOut B :=
  let dirs := sortStr (ops.listdir s.b)
  if dirs.length ≤ 0 then StepOut.halt StopKind.fatalEmpty
  else if sortStr dirs = s.lastDirs then StepOut.halt StopKind.fatalNoProgress
  else
    let s1 : LoopState B := { s with lastDirs := dirs }
    match keep with
    | some k =>
      if (dirs.length : Int) ≤ k then StepOut.halt StopKind.keepBackups
      else
        match s1.tr with
        | none => cleanStepB ops tfsp tbk dirs s1
        | some r =>
          if r ≤ 0 then StepOut.halt StopKind.maxRemoved
          else cleanStepB ops tfsp tbk dirs { s1 with tr := some (r - 1) }
    | none =>
      match s1.tr with
      | none => cleanStepB ops tfsp tbk dirs s1
      | some r =>
        if r ≤ 0 then StepOut.halt StopKind.maxRemoved
        else cleanStepB ops tfsp tbk dirs { s1 with tr := some (r - 1) }

/-- Fuelled model of the `while True` loop of `cleandir`.  A result
`some (k, removed, final)` is a terminated run ending for reason `k` after
removing `removed` in order, with `final` the loop state entering the last
iteration; `none` means the fuel ran out before the loop stopped. -/
noncomputable def cleandirFuel {B : Type} (ops : Ops B) (keep tfsp tbk : Option Int) :
    Nat → LoopState B → Option (StopKind × List String × LoopState B)
  | 0, _ => none
  | n + 1, s =>
    match cleanStep ops keep tfsp tbk s with
    | StepOut.halt k => some (k, [], s)
    | StepOut.go v s2 =>
      (cleandirFuel ops keep tfsp tbk n s2).map fun r => (r.1, v :: r.2.1, r.2.2)

/-- Configuration record handed to `cleandir` (the relevant attributes of
the parsed CLI namespace). -/
structure Targets where
  keep_backups : Option Int
  target_freespace : Option Int
  target_backups : Option Int
  target_removed : Option Int

/-- Loop state at entry of `cleandir`: flags unset, `last_dirs = []`,
counter loaded from the configuration. -/
def initState {B : Type} (tr : Option Int) (b : B) : LoopState B :=
  { b := b, tr := tr, wasFsp := none, wasBk := none, lastDirs := [] }

/-- Model of a `cleandir(operations, targets)` call with the given fuel. -/
noncomputable def cleandir {B : Type} (ops : Ops B) (tg : Targets) (fuel : Nat) (b : B) :
    Option (StopKind × List String × LoopState B) :=
  cleandirFuel ops tg.keep_backups tg.target_freespace tg.target_backups fuel
    (initState tg.target_removed b)

/-- Pure backend state standing for the snapshot directory: the association
of directory names to the space they hold (as in `FakeOperations.dirs`),
plus the volume's free space. -/
structure SimState where
  dirs : List (String × Int)
  space : Int

/-- Model of `Operations.listdir`: the directory entries whose names parse
against `DATE_FORMAT` (`[d for d in os.listdir(self.path) if timef(d)]`).
`timef d` is some value iff `instant d` is, so the test is on `instant`. -/
def simListdir (st : SimState) : List String :=
  (st.dirs.map Prod.fst).filter fun d => (instant d).isSome

/-- Model of `unsnap`: the named snapshot disappears and its space is
reclaimed (as accounted by `FakeOperations.unsnap`).  `cleandir` only ever
removes a name it just listed, so the name is present. -/
def simUnsnap (st : SimState) (d : String) : SimState :=
  { dirs := st.dirs.eraseP fun p => p.1 == d,
    space := st.space + ((st.dirs.lookup d).getD 0) }

/-- The backend operations over `SimState`. -/
def simOps : Ops SimState :=
  { listdir := simListdir, freespace := SimState.space, unsnap := simUnsnap }

theorem pymin_key_mem {c : List (String × ℝ)} {m : ℝ × String × String}
    (hm : pyminList (diffsOf (sortPairs (c.map Prod.swap))) = some m) :
    m.2.2 ∈ c.map Prod.fst := by
  have hmem := pyminList_eq_some hm
  obtain ⟨p, hp, hpe⟩ := List.mem_map.mp hmem
  have hsnd : p.2 ∈ sortPairs (c.map Prod.swap) := snd_mem_of_mem_poles _ _ hp
  have hsnd2 : p.2 ∈ c.map Prod.swap := (List.perm_insertionSort pairLe _).mem_iff.mp hsnd
  obtain ⟨q, hq, hqe⟩ := List.mem_map.mp hsnd2
  have hkey : q.1 = m.2.2 := by
    rw [← hpe]
    simp only [← hqe, Prod.swap]
  exact hkey ▸ List.mem_map_of_mem Prod.fst hq

theorem sortedValueLoop_eq_of_pymin {c : List (String × ℝ)} {m : ℝ × String × String}
    (h : 1 < c.length)
    (hm : pyminList (diffsOf (sortPairs (c.map Prod.swap))) = some m) :
    sortedValueLoop c = m.2.2 :: sortedValueLoop (eraseKey m.2.2 c) := by
  rw [sortedValueLoop.eq_def, dif_pos h]
  split
  · next heq => rw [hm] at heq; cases heq
  · next m' heq => rw [hm] at heq; injection heq with heq; rw [heq]

theorem sortedValueLoop_nil : sortedValueLoop [] = [] := by
  rw [sortedValueLoop.eq_def]
  simp

theorem sortedValueLoop_single (x : String × ℝ) : sortedValueLoop [x] = [x.1] := by
  rw [sortedValueLoop.eq_def]
  simp

theorem map_fst_eraseKey (k : String) (c : List (String × ℝ)) :
    (eraseKey k c).map Prod.fst = (c.map Prod.fst).eraseP (fun a => a == k) := by
  induction c with
  | nil => rfl
  | cons p ps ih =>
    by_cases hp : p.1 == k
    · simp [eraseKey, List.eraseP_cons, hp]
    · simp only [eraseKey, List.eraseP_cons, List.map_cons] at *
      simp [hp, ih]

theorem sortedValueLoop_perm (c : List (String × ℝ)) :
    (sortedValueLoop c).Perm (c.map Prod.fst) := by
  generalize hn : c.length = n
  induction n using Nat.strong_induction_on generalizing c with
  | _ n ih =>
    by_cases h : 1 < c.length
    · obtain ⟨m, hm, hlt⟩ := exists_pymin_of_one_lt c h
      rw [sortedValueLoop_eq_of_pymin h hm]
      have ihe := ih (eraseKey m.2.2 c).length (by omega) (eraseKey m.2.2 c) rfl
      rw [map_fst_eraseKey, ← List.erase_eq_eraseP'] at ihe
      exact (ihe.cons m.2.2).trans (List.perm_cons_erase (pymin_key_mem hm)).symm
    · rcases c with _ | ⟨x, _ | ⟨y, r⟩⟩
      · rw [sortedValueLoop_nil]
        exact List.Perm.refl _
      · rw [sortedValueLoop_single]
        exact List.Perm.refl _
      · simp at h

/-- The names of `dirs` that parse against `DATE_FORMAT`. -/
def validNames (dirs : List String) : List String :=
  dirs.filter fun y => (instant y).isSome

theorem validPairs_map_snd (dirs : List String) :
    (validPairs dirs).map Prod.snd = validNames dirs := by
  induction dirs with
  | nil => rfl
  | cons y ys ih =>
    cases hy : instant y with
    | none => simp [validPairs, validNames, timef, hy, List.filter_cons] at *; exact ih
    | some t =>
      simp [validPairs, validNames, timef, hy, List.filter_cons] at *
      exact ih

theorem validPairs_length (dirs : List String) :
    (validPairs dirs).length = (validNames dirs).length := by
  rw [← validPairs_map_snd, List.length_map]

theorem candidates0_map_fst (dirs : List String) :
    (candidates0 dirs).map Prod.fst = ((sortPairs (validPairs dirs)).dropLast).map Prod.snd := by
  simp only [candidates0, List.map_map]
  rfl

theorem candidates0_length (dirs : List String) :
    (candidates0 dirs).length = (validNames dirs).length - 1 := by
  simp only [candidates0, List.length_map, List.length_dropLast, sortPairs_length,
    validPairs_length]

theorem sorted_value_length (dirs : List String) :
    (sorted_value dirs).length = (validNames dirs).length - 1 := by
  rw [sorted_value]
  split
  · next h =>
    have : dirs = [] := List.length_eq_zero.mp (Nat.le_zero.mp h)
    subst this
    simp [validNames]
  · next h =>
    rw [(sortedValueLoop_perm (candidates0 dirs)).length_eq, List.length_map,
      candidates0_length]

theorem mem_validNames_of_mem_sorted_value {dirs : List String} {x : String}
    (hx : x ∈ sorted_value dirs) : x ∈ validNames dirs := by
  rw [sorted_value] at hx
  split at hx
  · next h =>
    have : dirs = [] := List.length_eq_zero.mp (Nat.le_zero.mp h)
    subst this
    simp at hx
  · next h =>
    have h1 : x ∈ (candidates0 dirs).map Prod.fst :=
      (sortedValueLoop_perm (candidates0 dirs)).mem_iff.mp hx
    rw [candidates0_map_fst] at h1
    obtain ⟨p, hp, hpe⟩ := List.mem_map.mp h1
    have hp2 : p ∈ sortPairs (validPairs dirs) := List.dropLast_subset _ hp
    have hp3 : p ∈ validPairs dirs := (List.perm_insertionSort pairLe _).mem_iff.mp hp2
    rw [← validPairs_map_snd]
    exact hpe ▸ List.mem_map_of_mem Prod.snd hp3

theorem log_two_pow_32_pos : 0 < Real.log (2 ^ 32 : ℝ) :=
  Real.log_pos (by norm_num)

theorem TIME_SCALE_lower : (2 ^ 32 : ℝ) / Real.log (2 ^ 32) ≤ TIME_SCALE :=
  Int.le_ceil _

theorem TIME_SCALE_pos : (0 : ℝ) < TIME_SCALE :=
  lt_of_lt_of_le (div_pos (by norm_num) log_two_pow_32_pos) TIME_SCALE_lower

/-- C9: with `TIME_SCALE = ceil(2^32 / ln(2^32))`, every instant `t` with
`0 ≤ t < 2^32` has value `exp(t / TIME_SCALE) < 2^32` (the mathematical
content of "stays within the safe range of the floating-point exponent,
never overflowing"), and the value remains strictly monotone in the
instant.  Float arithmetic is modelled as real arithmetic. -/
theorem claim_C9 (t : ℤ) :
    (0 ≤ t → t < 2 ^ 32 → valueOfInstant t < 2 ^ 32) ∧
    (∀ s : ℤ, t < s → valueOfInstant t < valueOfInstant s) := by
  constructor
  · intro _ hlt
    rw [valueOfInstant]
    rw [show ((2:ℝ) ^ 32) = Real.exp (Real.log (2 ^ 32)) from
      (Real.exp_log (by norm_num)).symm]
    apply Real.exp_lt_exp.mpr
    have h3 : (t : ℝ) < (2 ^ 32 : ℝ) := by exact_mod_cast hlt
    have h4 : (t : ℝ) / TIME_SCALE < (2 ^ 32 : ℝ) / TIME_SCALE :=
      div_lt_div_of_pos_right h3 TIME_SCALE_pos
    have h5 : (2 ^ 32 : ℝ) / TIME_SCALE ≤ Real.log (2 ^ 32) := by
      rw [div_le_iff₀ TIME_SCALE_pos]
      calc (2 ^ 32 : ℝ) = Real.log (2 ^ 32) * ((2 ^ 32 : ℝ) / Real.log (2 ^ 32)) := by
            field_simp
        _ ≤ Real.log (2 ^ 32) * TIME_SCALE :=
            mul_le_mul_of_nonneg_left TIME_SCALE_lower log_two_pow_32_pos.le
    exact lt_of_lt_of_le h4 h5
  · intro s hlt
    rw [valueOfInstant, valueOfInstant]
    apply Real.exp_lt_exp.mpr
    apply div_lt_div_of_pos_right _ TIME_SCALE_pos
    exact_mod_cast hlt

/-- Closed witness for C9 at `t = 0`. -/
theorem claim_C9_witness : valueOfInstant 0 < 2 ^ 32 ∧ valueOfInstant 0 < valueOfInstant 1 :=
  ⟨(claim_C9 0).1 (by norm_num) (by norm_num), (claim_C9 0).2 1 (by norm_num)⟩

theorem cleanStepB_cases {B : Type} (ops : Ops B) (tfsp tbk : Option Int)
    (dirs : List String) (s : LoopState B) :
    (doDelVote tfsp tbk (ops.freespace s.b) dirs.length ≠ some true ∧
      cleanStepB ops tfsp tbk dirs s = StepOut.halt StopKind.satisfied) ∨
    (doDelVote tfsp tbk (ops.freespace s.b) dirs.length = some true ∧
      (sorted_value dirs).head? = none ∧
      cleanStepB ops tfsp tbk dirs s = StepOut.halt StopKind.nothingLeft) ∨
    (∃ v, doDelVote tfsp tbk (ops.freespace s.b) dirs.length = some true ∧
      (sorted_value dirs).head? = some v ∧
      cleanStepB ops tfsp tbk dirs s =
        StepOut.go v { s with
          wasFsp := flagUpd (fun t => match t with
            | some f => decide (f ≤ ops.freespace s.b) | none => false) tfsp s.wasFsp,
          wasBk := flagUpd (fun t => match t with
            | some tb => decide ((dirs.length : Int) ≤ tb) | none => false) tbk s.wasBk,
          b := ops.unsnap s.b v }) := by
  by_cases hdd : doDelVote tfsp tbk (ops.freespace s.b) dirs.length = some true
  · cases hv : (sorted_value dirs).head? with
    | none =>
      refine Or.inr (Or.inl ⟨hdd, rfl, ?_⟩)
      rw [cleanStepB]
      simp only [hdd, hv, ne_eq, not_true_eq_false, if_false]
    | some v =>
      refine Or.inr (Or.inr ⟨v, hdd, rfl, ?_⟩)
      rw [cleanStepB]
      simp only [hdd, hv, ne_eq, not_true_eq_false, if_false]
  · refine Or.inl ⟨hdd, ?_⟩
    rw [cleanStepB]
    simp only [ne_eq, hdd, not_false_eq_true, if_true]

theorem sortStr_perm (l : List String) : (sortStr l).Perm l :=
  List.perm_insertionSort _ l

theorem sortStr_length (l : List String) : (sortStr l).length = l.length :=
  (sortStr_perm l).length_eq

theorem sortStr_idem (l : List String) : sortStr (sortStr l) = sortStr l :=
  List.Sorted.insertionSort_eq (List.sorted_insertionSort _ l)

/-- The `target_removed` check passes: the counter, if set, is still
positive. -/
def trPass (tr : Option Int) : Prop := ∀ r : Int, tr = some r → 0 < r

/-- The `keep_backups` check passes for a listing of length `n`. -/
def keepPass (keep : Option Int) (n : Nat) : Prop := ∀ k : Int, keep = some k → k < n

theorem cleanStep_eq_fatalEmpty {B : Type} {ops : Ops B} (keep tfsp tbk : Option Int)
    {s : LoopState B} (h : ops.listdir s.b = []) :
    cleanStep ops keep tfsp tbk s = StepOut.halt StopKind.fatalEmpty := by
  rw [cleanStep]
  simp only [h, sortStr]
  rfl

theorem cleanStep_eq_fatalNoProgress {B : Type} {ops : Ops B} (keep tfsp tbk : Option Int)
    {s : LoopState B} (h1 : ops.listdir s.b ≠ [])
    (h2 : sortStr (ops.listdir s.b) = s.lastDirs) :
    cleanStep ops keep tfsp tbk s = StepOut.halt StopKind.fatalNoProgress := by
  rw [cleanStep]
  rw [if_neg (by simp [sortStr_length, h1] : ¬(sortStr (ops.listdir s.b)).length ≤ 0)]
  rw [if_pos (by rw [sortStr_idem, h2])]

theorem cleanStep_eq_keepBackups {B : Type} {ops : Ops B} {keep : Option Int}
    (tfsp tbk : Option Int) {s : LoopState B} {k : Int}
    (h1 : ops.listdir s.b ≠ [])
    (h2 : sortStr (ops.listdir s.b) ≠ s.lastDirs)
    (hk : keep = some k) (hkle : ((sortStr (ops.listdir s.b)).length : Int) ≤ k) :
    cleanStep ops keep tfsp tbk s = StepOut.halt StopKind.keepBackups := by
  rw [cleanStep]
  rw [if_neg (by simp [sortStr_length, h1] : ¬(sortStr (ops.listdir s.b)).length ≤ 0)]
  rw [if_neg (by rw [sortStr_idem]; exact h2)]
  rw [hk]
  simp only []
  rw [if_pos hkle]

theorem cleanStep_eq_maxRemoved {B : Type} {ops : Ops B} {keep : Option Int}
    (tfsp tbk : Option Int) {s : LoopState B} {r : Int}
    (h1 : ops.listdir s.b ≠ [])
    (h2 : sortStr (ops.listdir s.b) ≠ s.lastDirs)
    (hk : keepPass keep (sortStr (ops.listdir s.b)).length)
    (hr : s.tr = some r) (hr0 : r ≤ 0) :
    cleanStep ops keep tfsp tbk s = StepOut.halt StopKind.maxRemoved := by
  rw [cleanStep]
  rw [if_neg (by simp [sortStr_length, h1] : ¬(sortStr (ops.listdir s.b)).length ≤ 0)]
  rw [if_neg (by rw [sortStr_idem]; exact h2)]
  cases hkv : keep with
  | none => simp only [hr, hr0, if_pos]
  | some k =>
    have := hk k hkv
    simp only [hr]
    rw [if_neg (by exact_mod_cast not_le.mpr this), if_pos hr0]

theorem cleanStep_eq_stepB {B : Type} {ops : Ops B} {keep : Option Int}
    (tfsp tbk : Option Int) {s : LoopState B}
    (h1 : ops.listdir s.b ≠ [])
    (h2 : sortStr (ops.listdir s.b) ≠ s.lastDirs)
    (hk : keepPass keep (sortStr (ops.listdir s.b)).length)
    (htr : trPass s.tr) :
    cleanStep ops keep tfsp tbk s =
      cleanStepB ops tfsp tbk (sortStr (ops.listdir s.b))
        { s with lastDirs := sortStr (ops.listdir s.b),
                 tr := s.tr.map (fun r => r - 1) } := by
  rw [cleanStep]
  rw [if_neg (by simp [sortStr_length, h1] : ¬(sortStr (ops.listdir s.b)).length ≤ 0)]
  rw [if_neg (by rw [sortStr_idem]; exact h2)]
  cases hkv : keep with
  | none =>
    cases htrv : s.tr with
    | none => rfl
    | some r =>
      have := htr r htrv
      simp only [htrv]
      rw [if_neg (not_le.mpr this)]
      rfl
  | some k =>
    have hklt := hk k hkv
    simp only []
    rw [if_neg (by exact_mod_cast not_le.mpr hklt)]
    cases htrv : s.tr with
    | none => rfl
    | some r =>
      have := htr r htrv
      simp only [htrv]
      rw [if_neg (not_le.mpr this)]
      rfl

theorem cleandirFuel_succ_inv {B : Type} {ops : Ops B} {keep tfsp tbk : Option Int}
    {n : Nat} {s fin : LoopState B} {res : StopKind} {rem : List String}
    (h : cleandirFuel ops keep tfsp tbk (n + 1) s = some (res, rem, fin)) :
    (cleanStep ops keep tfsp tbk s = StepOut.halt res ∧ rem = [] ∧ fin = s) ∨
    (∃ v s2 rem2, cleanStep ops keep tfsp tbk s = StepOut.go v s2 ∧ rem = v :: rem2 ∧
      cleandirFuel ops keep tfsp tbk n s2 = some (res, rem2, fin)) := by
  rw [cleandirFuel] at h
  split at h
  · next k heq =>
    injection h with h
    refine Or.inl ⟨?_, ?_, ?_⟩
    · rw [heq, show k = res from congrArg Prod.fst h]
    · exact (congrArg (fun p => p.2.1) h).symm
    · exact (congrArg (fun p => p.2.2) h).symm
  · next v s2 heq =>
    cases hrec : cleandirFuel ops keep tfsp tbk n s2 with
    | none => rw [hrec] at h; simp at h
    | some r =>
      rw [hrec] at h
      simp only [Option.map_some'] at h
      injection h with h
      refine Or.inr ⟨v, s2, r.2.1, heq, (congrArg (fun p => p.2.1) h).symm, ?_⟩
      have h1 : r.1 = res := congrArg Prod.fst h
      have h3 : r.2.2 = fin := congrArg (fun p => p.2.2) h
      rw [hrec, ← h1, ← h3]

theorem cleanStep_go_inv {B : Type} {ops : Ops B} {keep tfsp tbk : Option Int}
    {s : LoopState B} {v : String} {s2 : LoopState B}
    (h : cleanStep ops keep tfsp tbk s = StepOut.go v s2) :
    ops.listdir s.b ≠ [] ∧
    sortStr (ops.listdir s.b) ≠ s.lastDirs ∧
    keepPass keep (sortStr (ops.listdir s.b)).length ∧
    trPass s.tr ∧
    doDelVote tfsp tbk (ops.freespace s.b) (sortStr (ops.listdir s.b)).length = some true ∧
    (sorted_value (sortStr (ops.listdir s.b))).head? = some v ∧
    s2.b = ops.unsnap s.b v ∧
    s2.lastDirs = sortStr (ops.listdir s.b) ∧
    s2.tr = s.tr.map (fun r => r - 1) := by
  by_cases h1 : ops.listdir s.b = []
  · rw [cleanStep_eq_fatalEmpty keep tfsp tbk h1] at h; exact StepOut.noConfusion h
  by_cases h2 : sortStr (ops.listdir s.b) = s.lastDirs
  · rw [cleanStep_eq_fatalNoProgress keep tfsp tbk h1 h2] at h; exact StepOut.noConfusion h
  by_cases h3 : keepPass keep (sortStr (ops.listdir s.b)).length
  swap
  · rw [keepPass] at h3
    push_neg at h3
    obtain ⟨k, hk, hkle⟩ := h3
    rw [cleanStep_eq_keepBackups tfsp tbk h1 h2 hk hkle] at h
    exact StepOut.noConfusion h
  by_cases h4 : trPass s.tr
  swap
  · rw [trPass] at h4
    push_neg at h4
    obtain ⟨r, hr, hr0⟩ := h4
    rw [cleanStep_eq_maxRemoved tfsp tbk h1 h2 h3 hr hr0] at h
    exact StepOut.noConfusion h
  rw [cleanStep_eq_stepB tfsp tbk h1 h2 h3 h4] at h
  rcases cleanStepB_cases ops tfsp tbk (sortStr (ops.listdir s.b))
      { s with lastDirs := sortStr (ops.listdir s.b), tr := s.tr.map (fun r => r - 1) }
    with ⟨hdd, he⟩ | ⟨hdd, hv, he⟩ | ⟨v', hdd, hv, he⟩
  · rw [he] at h; exact StepOut.noConfusion h
  · rw [he] at h; exact StepOut.noConfusion h
  · rw [he] at h
    injection h with hveq hseq
    subst hveq
    refine ⟨h1, h2, h3, h4, hdd, hv, ?_, ?_, ?_⟩
    · rw [← hseq]
    · rw [← hseq]
    · rw [← hseq]

theorem cleanStep_satisfied_inv {B : Type} {ops : Ops B} {keep tfsp tbk : Option Int}
    {s : LoopState B}
    (h : cleanStep ops keep tfsp tbk s = StepOut.halt StopKind.satisfied) :
    ops.listdir s.b ≠ [] ∧
    keepPass keep (sortStr (ops.listdir s.b)).length ∧
    trPass s.tr ∧
    doDelVote tfsp tbk (ops.freespace s.b) (sortStr (ops.listdir s.b)).length ≠ some true := by
  by_cases h1 : ops.listdir s.b = []
  · rw [cleanStep_eq_fatalEmpty keep tfsp tbk h1] at h
    injection h with h
    exact StopKind.noConfusion h
  by_cases h2 : sortStr (ops.listdir s.b) = s.lastDirs
  · rw [cleanStep_eq_fatalNoProgress keep tfsp tbk h1 h2] at h
    injection h with h
    exact StopKind.noConfusion h
  by_cases h3 : keepPass keep (sortStr (ops.listdir s.b)).length
  swap
  · rw [keepPass] at h3
    push_neg at h3
    obtain ⟨k, hk, hkle⟩ := h3
    rw [cleanStep_eq_keepBackups tfsp tbk h1 h2 hk hkle] at h
    injection h with h
    exact StopKind.noConfusion h
  by_cases h4 : trPass s.tr
  swap
  · rw [trPass] at h4
    push_neg at h4
    obtain ⟨r, hr, hr0⟩ := h4
    rw [cleanStep_eq_maxRemoved tfsp tbk h1 h2 h3 hr hr0] at h
    injection h with h
    exact StopKind.noConfusion h
  rw [cleanStep_eq_stepB tfsp tbk h1 h2 h3 h4] at h
  rcases cleanStepB_cases ops tfsp tbk (sortStr (ops.listdir s.b))
      { s with lastDirs := sortStr (ops.listdir s.b), tr := s.tr.map (fun r => r - 1) }
    with ⟨hdd, he⟩ | ⟨hdd, hv, he⟩ | ⟨v', hdd, hv, he⟩
  · exact ⟨h1, h3, h4, hdd⟩
  · rw [he] at h
    injection h with h
    exact StopKind.noConfusion h
  · rw [he] at h
    exact StepOut.noConfusion h

theorem cleanStep_eq_satisfied {B : Type} {ops : Ops B} {keep tfsp tbk : Option Int}
    {s : LoopState B}
    (h1 : ops.listdir s.b ≠ [])
    (h2 : sortStr (ops.listdir s.b) ≠ s.lastDirs)
    (h3 : keepPass keep (sortStr (ops.listdir s.b)).length)
    (h4 : trPass s.tr)
    (h5 : doDelVote tfsp tbk (ops.freespace s.b) (sortStr (ops.listdir s.b)).length ≠ some true) :
    cleanStep ops keep tfsp tbk s = StepOut.halt StopKind.satisfied := by
  rw [cleanStep_eq_stepB tfsp tbk h1 h2 h3 h4]
  rcases cleanStepB_cases ops tfsp tbk (sortStr (ops.listdir s.b))
      { s with lastDirs := sortStr (ops.listdir s.b), tr := s.tr.map (fun r => r - 1) }
    with ⟨hdd, he⟩ | ⟨hdd, hv, he⟩ | ⟨v', hdd, hv, he⟩
  · exact he
  · exact absurd hdd h5
  · exact absurd hdd h5

theorem mem_of_head_eq_some {α : Type _} {l : List α} {a : α} (h : l.head? = some a) :
    a ∈ l := by
  cases l with
  | nil => cases h
  | cons x xs =>
    rw [List.head?_cons] at h
    injection h with h
    exact h ▸ List.mem_cons_self x xs

/-- C6: an identifier that fails to parse against the fixed timestamp
format gets no value from `timef` (the `except` clause returns `None`
instead of propagating the error), is never an element of the planner's
output for any input, is excluded from the backend listing that the
controller counts, and is never removed in any controller run. -/
theorem claim_C6 (x : String) (hx : instant x = none) :
    timef x = none ∧
    (∀ dirs : List String, x ∉ sorted_value dirs) ∧
    (∀ st : SimState, x ∉ simListdir st) ∧
    (∀ (B : Type) (ops : Ops B) (keep tfsp tbk : Option Int) (fuel : Nat)
        (s fin : LoopState B) (res : StopKind) (rem : List String),
      cleandirFuel ops keep tfsp tbk fuel s = some (res, rem, fin) → x ∉ rem) := by
  have hv : ∀ dirs, x ∉ sorted_value dirs := by
    intro dirs hmem
    have h1 := mem_validNames_of_mem_sorted_value hmem
    rw [validNames, List.mem_filter, hx] at h1
    simp at h1
  refine ⟨by rw [timef, hx]; rfl, hv, ?_, ?_⟩
  · intro st hmem
    rw [simListdir, List.mem_filter, hx] at hmem
    simp at hmem
  · intro B ops keep tfsp tbk fuel
    induction fuel with
    | zero =>
      intro s fin res rem h
      rw [cleandirFuel] at h
      cases h
    | succ n ih =>
      intro s fin res rem h
      rcases cleandirFuel_succ_inv h with ⟨_, hrem, _⟩ | ⟨v, s2, rem2, hstep, hrem, hrec⟩
      · rw [hrem]; simp
      · rw [hrem]
        intro hmem
        rcases List.mem_cons.mp hmem with he | hm
        · obtain ⟨_, _, _, _, _, hhead, _⟩ := cleanStep_go_inv hstep
          exact hv _ (he ▸ mem_of_head_eq_some hhead)
        · exact ih s2 fin res rem2 hrec hm

/-- Closed witness for C6 at the unparseable name "not-a-snapshot". -/
theorem claim_C6_witness :
    timef "not-a-snapshot" = none ∧
    (∀ dirs : List String, "not-a-snapshot" ∉ sorted_value dirs) ∧
    (∀ st : SimState, "not-a-snapshot" ∉ simListdir st) ∧
    (∀ (B : Type) (ops : Ops B) (keep tfsp tbk : Option Int) (fuel : Nat)
        (s fin : LoopState B) (res : StopKind) (rem : List String),
      cleandirFuel ops keep tfsp tbk fuel s = some (res, rem, fin) →
        "not-a-snapshot" ∉ rem) :=
  claim_C6 "not-a-snapshot" (by decide)

/-- Backend with a single snapshot, used as a concrete instantiation. -/
def demoOps : Ops Unit :=
  { listdir := fun _ => ["20101201-000000"], freespace := fun _ => 0,
    unsnap := fun b _ => b }

/-- Backend whose listing is empty. -/
def demoOpsEmpty : Ops Unit :=
  { listdir := fun _ => [], freespace := fun _ => 0, unsnap := fun b _ => b }

/-- C5: an iteration whose (sorted) listing equals the previous iteration's
ends the run with the fatal "No directories removed" failure rather than
continuing; an empty listing ends it with the fatal "No more directories to
clean" failure; an iteration that proceeds records the sorted listing as
`last_dirs` for the next round's comparison; and the fatal outcomes are
distinct from every clean-exit outcome. -/
theorem claim_C5 {B : Type} (ops : Ops B) (keep tfsp tbk : Option Int) (s : LoopState B) :
    (ops.listdir s.b = [] →
      cleanStep ops keep tfsp tbk s = StepOut.halt StopKind.fatalEmpty) ∧
    (ops.listdir s.b ≠ [] → sortStr (ops.listdir s.b) = s.lastDirs →
      cleanStep ops keep tfsp tbk s = StepOut.halt StopKind.fatalNoProgress) ∧
    (∀ v s2, cleanStep ops keep tfsp tbk s = StepOut.go v s2 →
      s2.lastDirs = sortStr (ops.listdir s.b)) ∧
    (StopKind.fatalNoProgress ≠ StopKind.keepBackups ∧
      StopKind.fatalNoProgress ≠ StopKind.maxRemoved ∧
      StopKind.fatalNoProgress ≠ StopKind.satisfied ∧
      StopKind.fatalNoProgress ≠ StopKind.nothingLeft ∧
      StopKind.fatalEmpty ≠ StopKind.keepBackups ∧
      StopKind.fatalEmpty ≠ StopKind.maxRemoved ∧
      StopKind.fatalEmpty ≠ StopKind.satisfied ∧
      StopKind.fatalEmpty ≠ StopKind.nothingLeft) := by
  refine ⟨fun h => cleanStep_eq_fatalEmpty keep tfsp tbk h,
    fun h1 h2 => cleanStep_eq_fatalNoProgress keep tfsp tbk h1 h2,
    fun v s2 h => ?_, by decide⟩
  obtain ⟨_, _, _, _, _, _, _, hlast, _⟩ := cleanStep_go_inv h
  exact hlast

/-- Closed witness for C5: the empty-listing backend raises the fatal empty
stop, and a backend whose listing equals `last_dirs` raises the fatal
no-progress stop. -/
theorem claim_C5_witness :
    cleanStep demoOpsEmpty none none none (initState none ()) =
      StepOut.halt StopKind.fatalEmpty ∧
    cleanStep demoOps none none none
        { b := (), tr := none, wasFsp := none, wasBk := none,
          lastDirs := ["20101201-000000"] } =
      StepOut.halt StopKind.fatalNoProgress :=
  ⟨(claim_C5 demoOpsEmpty none none none (initState none ())).1 rfl,
    (claim_C5 demoOps none none none _).2.1 (by decide) rfl⟩

theorem cleandirFuel_succ_halt {B : Type} {ops : Ops B} {keep tfsp tbk : Option Int}
    {n : Nat} {s : LoopState B} {k : StopKind}
    (h : cleanStep ops keep tfsp tbk s = StepOut.halt k) :
    cleandirFuel ops keep tfsp tbk (n + 1) s = some (k, [], s) := by
  rw [cleandirFuel, h]

theorem cleandirFuel_succ_go {B : Type} {ops : Ops B} {keep tfsp tbk : Option Int}
    {n : Nat} {s s2 : LoopState B} {v : String}
    (h : cleanStep ops keep tfsp tbk s = StepOut.go v s2) :
    cleandirFuel ops keep tfsp tbk (n + 1) s =
      (cleandirFuel ops keep tfsp tbk n s2).map fun r => (r.1, v :: r.2.1, r.2.2) := by
  rw [cleandirFuel, h]

theorem map_fst_eraseP_key {β : Type _} (k : String) (c : List (String × β)) :
    (c.eraseP fun p => p.1 == k).map Prod.fst = (c.map Prod.fst).eraseP (fun a => a == k) := by
  induction c with
  | nil => rfl
  | cons p ps ih =>
    by_cases hp : p.1 == k
    · simp [List.eraseP_cons, hp]
    · simp only [List.eraseP_cons, List.map_cons] at *
      simp [hp, ih]

theorem removals_le_counter {B : Type} {ops : Ops B} {keep tfsp tbk : Option Int} :
    ∀ (fuel : Nat) (s fin : LoopState B) (res : StopKind) (rem : List String) (N : Int),
      s.tr = some N → cleandirFuel ops keep tfsp tbk fuel s = some (res, rem, fin) →
      (rem.length : Int) ≤ max N 0 := by
  intro fuel
  induction fuel with
  | zero =>
    intro s fin res rem N _ h
    rw [cleandirFuel] at h
    cases h
  | succ n ih =>
    intro s fin res rem N hN h
    rcases cleandirFuel_succ_inv h with ⟨_, hrem, _⟩ | ⟨v, s2, rem2, hstep, hrem, hrec⟩
    · rw [hrem]
      simp
    · obtain ⟨_, _, _, htr, _, _, _, _, htr2⟩ := cleanStep_go_inv hstep
      have hpos : 0 < N := htr N hN
      have hs2 : s2.tr = some (N - 1) := by rw [htr2, hN]; rfl
      have := ih s2 fin res rem2 (N - 1) hs2 hrec
      rw [hrem]
      simp only [List.length_cons]
      have hmax : max (N - 1) 0 = N - 1 := max_eq_left (by omega)
      rw [hmax] at this
      push_cast
      omega

/-- The snapshot directory of the source's built-in `--test` fixture: nine
hourly snapshots with spaces 0..8 and 5 units free. -/
def testDirs : List (String × Int) :=
  [("20101201-000000", 0), ("20101201-010000", 1), ("20101201-020000", 2),
   ("20101201-030000", 3), ("20101201-040000", 4), ("20101201-050000", 5),
   ("20101201-060000", 6), ("20101201-070000", 7), ("20101201-080000", 8)]

/-- The backend state of the test fixture. -/
def testState : SimState := { dirs := testDirs, space := 5 }

/-- The nine snapshot names of the test fixture. -/
def names9 : List String := testDirs.map Prod.fst

theorem names9_valid : ∀ x ∈ names9, (instant x).isSome = true := by decide

theorem scenario_step1 :
    ∃ v s2, v ∈ names9 ∧
      cleanStep simOps (some 2) none (some 0) (initState (some 1) testState) =
        StepOut.go v s2 := by
  have hL : simOps.listdir (@initState SimState (some 1) testState).b = names9 := by
    decide
  have hsort : sortStr names9 = names9 := by decide
  have h1 : simOps.listdir (@initState SimState (some 1) testState).b ≠ [] := by
    rw [hL]; decide
  have h2 : sortStr (simOps.listdir (@initState SimState (some 1) testState).b) ≠
      (@initState SimState (some 1) testState).lastDirs := by
    rw [hL, hsort]; decide
  have h3 : keepPass (some 2)
      (sortStr (simOps.listdir (@initState SimState (some 1) testState).b)).length := by
    rw [hL, hsort]
    intro k hk
    injection hk with hk
    rw [← hk]
    decide
  have h4 : trPass (@initState SimState (some 1) testState).tr := by
    intro r hr
    injection hr with hr
    omega
  have hstep := @cleanStep_eq_stepB SimState simOps (some 2) none (some 0) _ h1 h2 h3 h4
  rcases cleanStepB_cases simOps none (some 0)
      (sortStr (simOps.listdir (@initState SimState (some 1) testState).b))
      { @initState SimState (some 1) testState with
        lastDirs := sortStr (simOps.listdir (@initState SimState (some 1) testState).b),
        tr := (@initState SimState (some 1) testState).tr.map (fun r => r - 1) }
    with ⟨hdd, he⟩ | ⟨hdd, hv, he⟩ | ⟨v, hdd, hv, he⟩
  · exfalso
    apply hdd
    rw [hL, hsort]
    decide
  · exfalso
    rw [hL, hsort] at hv
    have h8 : (sorted_value names9).length = 8 := by
      rw [sorted_value_length]
      decide
    rw [List.head?_eq_none_iff] at hv
    rw [hv] at h8
    cases h8
  · refine ⟨v, _, ?_, by rw [hstep, he]⟩
    rw [hL, hsort] at hv
    have hmem := mem_validNames_of_mem_sorted_value (mem_of_head_eq_some hv)
    rw [validNames, List.mem_filter] at hmem
    exact hmem.1

theorem simListdir_unsnap_of_valid {st : SimState} {v : String}
    (hvalid : ∀ x ∈ (st.dirs.map Prod.fst), (instant x).isSome = true)
    (hv : v ∈ st.dirs.map Prod.fst) :
    simListdir (simUnsnap st v) = (st.dirs.map Prod.fst).eraseP (fun a => a == v) ∧
    (simListdir (simUnsnap st v)).length = (st.dirs.map Prod.fst).length - 1 := by
  have h1 : ((st.dirs.eraseP fun p => p.1 == v).map Prod.fst) =
      (st.dirs.map Prod.fst).eraseP (fun a => a == v) := map_fst_eraseP_key v st.dirs
  have hsub : (st.dirs.map Prod.fst).eraseP (fun a => a == v) ⊆ st.dirs.map Prod.fst :=
    (List.eraseP_sublist _).subset
  have h2 : simListdir (simUnsnap st v) = (st.dirs.map Prod.fst).eraseP (fun a => a == v) := by
    rw [simListdir, simUnsnap]
    simp only []
    rw [h1]
    exact List.filter_eq_self.mpr fun a ha => hvalid a (hsub ha)
  refine ⟨h2, ?_⟩
  rw [h2, List.length_eraseP_of_mem hv (by simp)]

theorem scenario_run (n : Nat) :
    ∃ v fin,
      cleandirFuel simOps (some 2) none (some 0) (n + 2) (initState (some 1) testState) =
        some (StopKind.maxRemoved, [v], fin) := by
  obtain ⟨v, s2, hv9, hstep1⟩ := scenario_step1
  obtain ⟨_, _, _, _, _, _, hb2, hlast2, htr2⟩ := cleanStep_go_inv hstep1
  have hL : simOps.listdir (@initState SimState (some 1) testState).b = names9 := by
    decide
  have hsort : sortStr names9 = names9 := by decide
  have hfst : testState.dirs.map Prod.fst = names9 := by decide
  have hv9d : v ∈ testState.dirs.map Prod.fst := by rw [hfst]; exact hv9
  obtain ⟨hld2, hlen2⟩ := simListdir_unsnap_of_valid
    (by rw [hfst]; exact names9_valid) hv9d
  have hb2e : s2.b = simUnsnap testState v := hb2
  have hlen2' : (simOps.listdir s2.b).length = 8 := by
    rw [show simOps.listdir s2.b = simListdir (simUnsnap testState v) by rw [hb2e]; rfl]
    rw [hlen2, hfst]
    decide
  have h1 : simOps.listdir s2.b ≠ [] := by
    intro hc
    rw [hc] at hlen2'
    cases hlen2'
  have h2 : sortStr (simOps.listdir s2.b) ≠ s2.lastDirs := by
    intro hc
    have := congrArg List.length hc
    rw [sortStr_length, hlen2', hlast2, hL, hsort] at this
    cases this
  have h3 : keepPass (some 2) (sortStr (simOps.listdir s2.b)).length := by
    intro k hk
    injection hk with hk
    rw [← hk, sortStr_length, hlen2']
    decide
  have htr2' : s2.tr = some 0 := by
    rw [htr2]
    rfl
  have hstep2 : cleanStep simOps (some 2) none (some 0) s2 =
      StepOut.halt StopKind.maxRemoved :=
    cleanStep_eq_maxRemoved none (some 0) h1 h2 h3 htr2' le_rfl
  refine ⟨v, s2, ?_⟩
  rw [cleandirFuel_succ_go hstep1, cleandirFuel_succ_halt hstep2]
  rfl

theorem filter_eraseP_comm (p : String → Bool) (v : String) (hp : p v = true) :
    ∀ l : List String, (l.eraseP (· == v)).filter p = (l.filter p).eraseP (· == v)
  | [] => rfl
  | a :: l => by
    by_cases ha : a == v
    · have hav : a = v := eq_of_beq ha
      rw [List.eraseP_cons, ha]
      simp only [cond_true]
      rw [List.filter_cons, if_pos (by rw [hav]; exact hp)]
      rw [List.eraseP_cons, ha]
      rfl
    · rw [List.eraseP_cons]
      simp only [ha, cond_false]
      rw [List.filter_cons, List.filter_cons]
      by_cases hpa : p a = true
      · rw [if_pos hpa, if_pos hpa, List.eraseP_cons]
        simp only [ha, cond_false]
        rw [filter_eraseP_comm p v hp l]
      · rw [if_neg hpa, if_neg hpa]
        exact filter_eraseP_comm p v hp l

theorem victim_mem_and_valid {dirs : List String} {v : String}
    (h : (sorted_value dirs).head? = some v) :
    v ∈ dirs ∧ (instant v).isSome = true := by
  have h1 := mem_validNames_of_mem_sorted_value (mem_of_head_eq_some h)
  rw [validNames, List.mem_filter] at h1
  exact h1

theorem simListdir_unsnap {st : SimState} {v : String}
    (hv : v ∈ simListdir st) :
    simListdir (simUnsnap st v) = (simListdir st).eraseP (· == v) ∧
    (simListdir (simUnsnap st v)).length + 1 = (simListdir st).length := by
  have hvv : (instant v).isSome = true := (List.mem_filter.mp hv).2
  have h1 : simListdir (simUnsnap st v) =
      ((st.dirs.map Prod.fst).eraseP (fun a => a == v)).filter
        (fun d => (instant d).isSome) := by
    rw [simListdir, simUnsnap]
    simp only []
    rw [map_fst_eraseP_key]
  have h2 : simListdir (simUnsnap st v) = (simListdir st).eraseP (· == v) := by
    rw [h1, filter_eraseP_comm _ v (by rw [hvv]) _]
    rfl
  refine ⟨h2, ?_⟩
  rw [h2, List.length_eraseP_of_mem hv (by simp)]
  have : 0 < (simListdir st).length := List.length_pos.mpr (List.ne_nil_of_mem hv)
  omega

theorem run_nil_fin {B : Type} {ops : Ops B} {keep tfsp tbk : Option Int}
    {fuel : Nat} {s fin : LoopState B} {res : StopKind}
    (h : cleandirFuel ops keep tfsp tbk fuel s = some (res, [], fin)) : fin = s := by
  cases fuel with
  | zero => rw [cleandirFuel] at h; cases h
  | succ n =>
    rcases cleandirFuel_succ_inv h with ⟨_, _, hfin⟩ | ⟨v, s2, rem2, _, hrem, _⟩
    · exact hfin
    · cases hrem

theorem keep_floor_run {keep tfsp tbk : Option Int} {k : Int} (hkeep : keep = some k) :
    ∀ (fuel : Nat) (s fin : LoopState SimState) (res : StopKind) (rem : List String),
      cleandirFuel simOps keep tfsp tbk fuel s = some (res, rem, fin) →
      (simListdir fin.b).length + rem.length = (simListdir s.b).length ∧
      (rem ≠ [] → k ≤ ((simListdir fin.b).length : Int)) := by
  intro fuel
  induction fuel with
  | zero =>
    intro s fin res rem h
    rw [cleandirFuel] at h
    cases h
  | succ n ih =>
    intro s fin res rem h
    rcases cleandirFuel_succ_inv h with ⟨_, hrem, hfin⟩ | ⟨v, s2, rem2, hstep, hrem, hrec⟩
    · rw [hrem, hfin]
      exact ⟨rfl, fun hc => absurd rfl hc⟩
    · obtain ⟨_, _, hkp, _, _, hhead, hb2, _, _⟩ := cleanStep_go_inv hstep
      have hvm := victim_mem_and_valid hhead
      have hvmem : v ∈ simListdir s.b := (sortStr_perm _).mem_iff.mp hvm.1
      obtain ⟨_, hcount⟩ := simListdir_unsnap hvmem
      have hcount2 : (simListdir s2.b).length + 1 = (simListdir s.b).length := by
        rw [show s2.b = simUnsnap s.b v from hb2]
        exact hcount
      have hklt : k < ((simListdir s.b).length : Int) := by
        have := hkp k hkeep
        rw [sortStr_length] at this
        exact this
      obtain ⟨ih1, ih2⟩ := ih s2 fin res rem2 hrec
      constructor
      · rw [hrem]
        simp only [List.length_cons]
        omega
      · intro _
        cases hrem2 : rem2 with
        | nil =>
          have hfin2 : fin = s2 := run_nil_fin (hrem2 ▸ hrec)
          rw [hfin2]
          omega
        | cons a l =>
          exact ih2 (by rw [hrem2]; exact List.cons_ne_nil a l)

/-- C3: with `keep_backups = k` set, an iteration whose listing counts at
most `k` valid snapshots stops with the clean `keepBackups` exit before any
removal; consequently, over a whole run of `cleandir` on the directory
backend, the snapshot count never drops below `k` through a removal: the
count decreases by exactly the number of removals and, whenever at least
one removal happened, the final count is still at least `k`. -/
theorem claim_C3 :
    (∀ (B : Type) (ops : Ops B) (keep tfsp tbk : Option Int) (s : LoopState B) (k : Int),
      keep = some k → ops.listdir s.b ≠ [] →
      sortStr (ops.listdir s.b) ≠ s.lastDirs →
      ((sortStr (ops.listdir s.b)).length : Int) ≤ k →
      cleanStep ops keep tfsp tbk s = StepOut.halt StopKind.keepBackups) ∧
    (∀ (keep tfsp tbk : Option Int) (k : Int) (fuel : Nat)
        (s fin : LoopState SimState) (res : StopKind) (rem : List String),
      keep = some k →
      cleandirFuel simOps keep tfsp tbk fuel s = some (res, rem, fin) →
      (simListdir fin.b).length + rem.length = (simListdir s.b).length ∧
      (rem ≠ [] → k ≤ ((simListdir fin.b).length : Int))) := by
  constructor
  · intro B ops keep tfsp tbk s k hk h1 h2 hle
    exact cleanStep_eq_keepBackups tfsp tbk h1 h2 hk hle
  · intro keep tfsp tbk k fuel s fin res rem hk h
    exact keep_floor_run hk fuel s fin res rem h

/-- Single-snapshot directory state used by concrete witnesses. -/
def st1 : SimState := { dirs := [("20101201-000000", 0)], space := 5 }

/-- Closed witness for C3: with one snapshot and `keep_backups = 5` the
iteration stops with the clean keep-floor exit, and the corresponding
one-iteration run removes nothing and keeps the count unchanged. -/
theorem claim_C3_witness :
    cleanStep simOps (some 5) none none (initState none st1) =
      StepOut.halt StopKind.keepBackups ∧
    (simListdir (@initState SimState none st1).b).length + ([] : List String).length =
      (simListdir (@initState SimState none st1).b).length := by
  have hstep := claim_C3.1 SimState simOps (some 5) none none (initState none st1) 5
    rfl (by decide) (by decide) (by decide)
  refine ⟨hstep, ?_⟩
  have hrun : cleandirFuel simOps (some 5) none none 1 (initState none st1) =
      some (StopKind.keepBackups, [], initState none st1) :=
    cleandirFuel_succ_halt hstep
  exact (claim_C3.2 (some 5) none none 5 1 (initState none st1) (initState none st1)
    StopKind.keepBackups [] rfl hrun).1

/-- C4: with `target_removed = N ≥ 0` a run performs at most `N` removals;
an iteration that finds the counter exhausted (the earlier empty,
no-progress and keep-floor checks passing) stops with the clean
`maxRemoved` exit; every removing iteration decrements the counter once;
and in the scenario `target_removed = 1`, `target_backups = 0` with nine
valid snapshots present (`keep_backups` at its source default 2), exactly
one removal occurs in the run. -/
theorem claim_C4 :
    (∀ (B : Type) (ops : Ops B) (keep tfsp tbk : Option Int) (fuel : Nat)
        (s fin : LoopState B) (res : StopKind) (rem : List String) (N : Int),
      0 ≤ N → s.tr = some N →
      cleandirFuel ops keep tfsp tbk fuel s = some (res, rem, fin) →
      (rem.length : Int) ≤ N) ∧
    (∀ (B : Type) (ops : Ops B) (keep tfsp tbk : Option Int) (s : LoopState B) (r : Int),
      s.tr = some r → r ≤ 0 → ops.listdir s.b ≠ [] →
      sortStr (ops.listdir s.b) ≠ s.lastDirs →
      keepPass keep (sortStr (ops.listdir s.b)).length →
      cleanStep ops keep tfsp tbk s = StepOut.halt StopKind.maxRemoved) ∧
    (∀ (B : Type) (ops : Ops B) (keep tfsp tbk : Option Int) (s s2 : LoopState B)
        (v : String),
      cleanStep ops keep tfsp tbk s = StepOut.go v s2 →
      s2.tr = s.tr.map (fun r => r - 1)) ∧
    (∀ fuel : Nat, 2 ≤ fuel → ∃ v fin,
      cleandirFuel simOps (some 2) none (some 0) fuel (initState (some 1) testState) =
        some (StopKind.maxRemoved, [v], fin)) := by
  refine ⟨?_, ?_, ?_, ?_⟩
  · intro B ops keep tfsp tbk fuel s fin res rem N hN htr h
    have hb := removals_le_counter fuel s fin res rem N htr h
    rw [max_eq_left hN] at hb
    exact hb
  · intro B ops keep tfsp tbk s r htr hr h1 h2 h3
    exact cleanStep_eq_maxRemoved tfsp tbk h1 h2 h3 htr hr
  · intro B ops keep tfsp tbk s s2 v h
    exact (cleanStep_go_inv h).2.2.2.2.2.2.2.2
  · intro fuel hfuel
    obtain ⟨m, rfl⟩ : ∃ m, fuel = m + 2 := ⟨fuel - 2, by omega⟩
    exact scenario_run m

/-- Closed witness for C4: the scenario run at fuel 2. -/
theorem claim_C4_witness :
    ∃ v fin,
      cleandirFuel simOps (some 2) none (some 0) 2 (initState (some 1) testState) =
        some (StopKind.maxRemoved, [v], fin) :=
  claim_C4.2.2.2 2 (by norm_num)

theorem satisfied_run_inv {B : Type} {ops : Ops B} {keep tfsp tbk : Option Int} :
    ∀ (fuel : Nat) (s fin : LoopState B) (rem : List String),
      cleandirFuel ops keep tfsp tbk fuel s = some (StopKind.satisfied, rem, fin) →
      (ops.listdir fin.b ≠ [] ∧
        keepPass keep (sortStr (ops.listdir fin.b)).length ∧
        trPass fin.tr ∧
        doDelVote tfsp tbk (ops.freespace fin.b) (sortStr (ops.listdir fin.b)).length ≠
          some true) ∧
      (s.tr = none → fin.tr = none) ∧
      (∀ N : Int, s.tr = some N → ∃ r : Int, fin.tr = some r ∧ r ≤ N) := by
  intro fuel
  induction fuel with
  | zero =>
    intro s fin rem h
    rw [cleandirFuel] at h
    cases h
  | succ n ih =>
    intro s fin rem h
    rcases cleandirFuel_succ_inv h with ⟨hstep, _, hfin⟩ | ⟨v, s2, rem2, hstep, _, hrec⟩
    · subst hfin
      exact ⟨cleanStep_satisfied_inv hstep, fun h => h, fun N hN => ⟨N, hN, le_refl N⟩⟩
    · obtain ⟨hconds, hlink1, hlink2⟩ := ih s2 fin rem2 hrec
      obtain ⟨_, _, _, _, _, _, _, _, htr2⟩ := cleanStep_go_inv hstep
      refine ⟨hconds, ?_, ?_⟩
      · intro hnone
        apply hlink1
        rw [htr2, hnone]
        rfl
      · intro N hN
        obtain ⟨r, hr, hrle⟩ := hlink2 (N - 1) (by rw [htr2, hN]; rfl)
        exact ⟨r, hr, by omega⟩

/-- C8: a second `cleandir` run started on the state a first run left behind
when it stopped cleanly with its targets satisfied performs zero removals:
its first iteration reaches the same clean `satisfied` stop without any
`unsnap` call. -/
theorem claim_C8 {B : Type} (ops : Ops B) (tg : Targets) (fuel fuel2 : Nat)
    (b0 : B) (rem : List String) (fin : LoopState B)
    (hrun : cleandir ops tg fuel b0 = some (StopKind.satisfied, rem, fin))
    (hf2 : 1 ≤ fuel2) :
    cleandir ops tg fuel2 fin.b =
      some (StopKind.satisfied, [], initState tg.target_removed fin.b) := by
  rw [cleandir] at hrun
  obtain ⟨⟨h1, h3, h4f, h5⟩, hlink1, hlink2⟩ :=
    satisfied_run_inv fuel (initState tg.target_removed b0) fin rem hrun
  have h2 : sortStr (ops.listdir fin.b) ≠
      (@initState B tg.target_removed fin.b).lastDirs := by
    intro hc
    apply h1
    have := congrArg List.length hc
    rw [sortStr_length] at this
    exact List.length_eq_zero.mp this
  have h4 : trPass (@initState B tg.target_removed fin.b).tr := by
    intro r hr
    cases htg : tg.target_removed with
    | none =>
      rw [show (@initState B tg.target_removed fin.b).tr = tg.target_removed from rfl,
        htg] at hr
      cases hr
    | some N =>
      rw [show (@initState B tg.target_removed fin.b).tr = tg.target_removed from rfl,
        htg] at hr
      injection hr with hr
      obtain ⟨r2, hr2, hr2le⟩ := hlink2 N (by rw [show (initState (B := B) tg.target_removed b0).tr = tg.target_removed from rfl, htg])
      have := h4f r2 hr2
      omega
  have hstep : cleanStep ops tg.keep_backups tg.target_freespace tg.target_backups
      (initState tg.target_removed fin.b) = StepOut.halt StopKind.satisfied :=
    cleanStep_eq_satisfied h1 h2 h3 h4 h5
  obtain ⟨m, rfl⟩ : ∃ m, fuel2 = m + 1 := ⟨fuel2 - 1, by omega⟩
  rw [cleandir]
  exact cleandirFuel_succ_halt hstep

/-- Targets record used by the C8 witness: `keep_backups = 0`,
`target_backups = 5` (already satisfied by one snapshot). -/
def tgW : Targets :=
  { keep_backups := some 0, target_freespace := none, target_backups := some 5,
    target_removed := none }

/-- Closed witness for C8: a one-snapshot run that stops satisfied, re-run
on its final state, again stops satisfied with zero removals. -/
theorem claim_C8_witness :
    cleandir simOps tgW 1 (@initState SimState none st1).b =
      some (StopKind.satisfied, [], initState tgW.target_removed
        (@initState SimState none st1).b) := by
  have h3 : keepPass tgW.keep_backups
      (sortStr (simOps.listdir (@initState SimState none st1).b)).length := by
    intro k hk
    injection hk with hk
    rw [← hk]
    decide
  have hstep : cleanStep simOps tgW.keep_backups tgW.target_freespace tgW.target_backups
      (initState none st1) = StepOut.halt StopKind.satisfied :=
    cleanStep_eq_satisfied (by decide) (by decide) h3
      (by intro r hr; cases hr) (by decide)
  have hrun : cleandir simOps tgW 1 st1 =
      some (StopKind.satisfied, [], initState none st1) := by
    rw [cleandir]
    exact cleandirFuel_succ_halt hstep
  exact claim_C8 simOps tgW 1 1 st1 [] (initState none st1) hrun le_rfl

instance pairLe.instTrans : IsTrans (ℝ × String) pairLe := by
  refine ⟨fun a b c h1 h2 => ?_⟩
  rcases h1 with h1 | ⟨e1, h1⟩
  · rcases h2 with h2 | ⟨e2, h2⟩
    · exact Or.inl (lt_trans h1 h2)
    · exact Or.inl (e2 ▸ h1)
  · rcases h2 with h2 | ⟨e2, h2⟩
    · exact Or.inl (e1 ▸ h2)
    · exact Or.inr ⟨e1.trans e2, le_trans h1 h2⟩

instance pairLe.instTotal : IsTotal (ℝ × String) pairLe := by
  refine ⟨fun a b => ?_⟩
  rcases lt_trichotomy a.1 b.1 with h | h | h
  · exact Or.inl (Or.inl h)
  · rcases le_total a.2 b.2 with h2 | h2
    · exact Or.inl (Or.inr ⟨h, h2⟩)
    · exact Or.inr (Or.inr ⟨h.symm, h2⟩)
  · exact Or.inr (Or.inl h)

theorem sorted_cons_rel {a : ℝ × String} {t : List (ℝ × String)}
    (hs : (a :: t).Sorted pairLe) : ∀ y ∈ t, pairLe a y :=
  fun y hy => (List.sorted_cons.mp hs).1 y hy

theorem sorted_head_eq_of_min {l : List (ℝ × String)} (hs : l.Sorted pairLe)
    {x : ℝ × String} (hx : x ∈ l) (hmin : ∀ y ∈ l, y ≠ x → x.1 < y.1) :
    ∃ t, l = x :: t := by
  cases l with
  | nil => cases hx
  | cons a t =>
    by_cases hax : a = x
    · exact ⟨t, by rw [hax]⟩
    · exfalso
      have hxt : x ∈ t := by
        rcases List.mem_cons.mp hx with h | h
        · exact absurd h.symm hax
        · exact h
      have h1 : pairLe a x := sorted_cons_rel hs x hxt
      have h2 : x.1 < a.1 := hmin a (List.mem_cons_self a t) hax
      rcases h1 with h1 | ⟨h1, _⟩
      · exact absurd h1 (lt_asymm h2)
      · rw [h1] at h2
        exact lt_irrefl _ h2

theorem sorted_rel_getLast {l : List (ℝ × String)} (hs : l.Sorted pairLe)
    (hne : l ≠ []) : ∀ y ∈ l, y = l.getLast hne ∨ pairLe y (l.getLast hne) := by
  induction l with
  | nil => exact absurd rfl hne
  | cons a t ih =>
    intro y hy
    cases t with
    | nil =>
      rcases List.mem_cons.mp hy with h | h
      · exact Or.inl (by rw [h]; rfl)
      · cases h
    | cons b u =>
      have htne : b :: u ≠ [] := List.cons_ne_nil b u
      have hgl : (a :: b :: u).getLast hne = (b :: u).getLast htne := by
        rw [List.getLast_cons htne]
      rcases List.mem_cons.mp hy with h | h
      · subst h
        have hglm : (b :: u).getLast htne ∈ b :: u := List.getLast_mem htne
        exact Or.inr (hgl ▸ sorted_cons_rel hs _ hglm)
      · rcases ih (List.sorted_cons.mp hs).2 htne y h with h2 | h2
        · exact Or.inl (by rw [hgl, ← h2])
        · exact Or.inr (hgl ▸ h2)

theorem sorted_getLast_eq_of_max {l : List (ℝ × String)} (hs : l.Sorted pairLe)
    {x : ℝ × String} (hx : x ∈ l) (hmax : ∀ y ∈ l, y ≠ x → y.1 < x.1)
    (hne : l ≠ []) : l.getLast hne = x := by
  by_contra hne2
  have hglm : l.getLast hne ∈ l := List.getLast_mem hne
  have h2 : (l.getLast hne).1 < x.1 := hmax _ hglm hne2
  rcases sorted_rel_getLast hs hne x hx with h | h
  · exact hne2 (by rw [h])
  · rcases h with h | ⟨h, _⟩
    · exact absurd h (lt_asymm h2)
    · rw [h] at h2
      exact lt_irrefl _ h2

theorem mem_validPairs {dirs : List String} {p : ℝ × String} :
    p ∈ validPairs dirs ↔ p.2 ∈ dirs ∧ timef p.2 = some p.1 := by
  rw [validPairs, List.mem_filterMap]
  constructor
  · rintro ⟨y, hy, hfy⟩
    cases hty : timef y with
    | none => rw [hty] at hfy; cases hfy
    | some v =>
      rw [hty] at hfy
      injection hfy with hfy
      have h2 : y = p.2 := congrArg Prod.snd hfy
      have h1 : v = p.1 := congrArg Prod.fst hfy
      exact ⟨h2 ▸ hy, by rw [← h2, hty, h1]⟩
  · rintro ⟨hmem, hval⟩
    exact ⟨p.2, hmem, by rw [hval]; rfl⟩

theorem valueOfInstant_lt {s t : ℤ} (h : s < t) : valueOfInstant s < valueOfInstant t := by
  rw [valueOfInstant, valueOfInstant]
  apply Real.exp_lt_exp.mpr
  apply div_lt_div_of_pos_right _ TIME_SCALE_pos
  exact_mod_cast h

/-- C1: for a duplicate-free input whose valid identifiers have a strict
maximum-value member `m`, the planner output is a permutation of the valid
identifiers with `m` removed, its length is the valid count minus one, and
`m` is never an element; with fewer than two valid identifiers the output
is empty. -/
theorem claim_C1 (dirs : List String) (hnd : dirs.Nodup) :
    (∀ (m : String) (vm : ℝ), m ∈ dirs → timef m = some vm →
      (∀ y vy, y ∈ dirs → timef y = some vy → y ≠ m → vy < vm) →
      2 ≤ (validNames dirs).length →
      (sorted_value dirs).Perm ((validNames dirs).erase m) ∧
      (sorted_value dirs).length = (validNames dirs).length - 1 ∧
      m ∉ sorted_value dirs) ∧
    ((validNames dirs).length < 2 → sorted_value dirs = []) := by
  constructor
  · intro m vm hm htm hmax _
    have hvmp : (vm, m) ∈ validPairs dirs := mem_validPairs.mpr ⟨hm, htm⟩
    have hperm : (sortPairs (validPairs dirs)).Perm (validPairs dirs) :=
      List.perm_insertionSort pairLe _
    have hsorted : (sortPairs (validPairs dirs)).Sorted pairLe :=
      List.sorted_insertionSort pairLe _
    have hvmp2 : (vm, m) ∈ sortPairs (validPairs dirs) := hperm.mem_iff.mpr hvmp
    have hmax2 : ∀ y ∈ sortPairs (validPairs dirs), y ≠ (vm, m) → y.1 < vm := by
      intro y hy hyne
      have hy2 := mem_validPairs.mp (hperm.mem_iff.mp hy)
      by_cases hc : y.2 = m
      · exfalso
        apply hyne
        rw [hc] at hy2
        rw [htm] at hy2
        injection hy2.2 with h2
        rw [Prod.ext_iff]
        exact ⟨h2.symm, hc⟩
      · exact hmax y.2 y.1 hy2.1 hy2.2 hc
    have hne : sortPairs (validPairs dirs) ≠ [] := List.ne_nil_of_mem hvmp2
    have hlast : (sortPairs (validPairs dirs)).getLast hne = (vm, m) :=
      sorted_getLast_eq_of_max hsorted hvmp2 hmax2 hne
    have hdecomp : (sortPairs (validPairs dirs)).dropLast ++ [(vm, m)] =
        sortPairs (validPairs dirs) := by
      rw [← hlast]
      exact List.dropLast_append_getLast hne
    have hsnd : ((sortPairs (validPairs dirs)).dropLast).map Prod.snd ++ [m] =
        (sortPairs (validPairs dirs)).map Prod.snd := by
      conv_rhs => rw [← hdecomp]
      rw [List.map_append]
      rfl
    have hvperm : (validNames dirs).Perm
        (((sortPairs (validPairs dirs)).dropLast).map Prod.snd ++ [m]) := by
      rw [hsnd, ← validPairs_map_snd]
      exact (hperm.map Prod.snd).symm
    have hndv : (validNames dirs).Nodup := hnd.filter _
    have hnd2 : (((sortPairs (validPairs dirs)).dropLast).map Prod.snd ++ [m]).Nodup :=
      hvperm.nodup_iff.mp hndv
    have hmnotin : m ∉ ((sortPairs (validPairs dirs)).dropLast).map Prod.snd := by
      intro hc
      have hdisj := (List.nodup_append.mp hnd2).2.2
      exact hdisj hc (List.mem_singleton_self m)
    have herase : ((validNames dirs).erase m).Perm
        (((sortPairs (validPairs dirs)).dropLast).map Prod.snd) := by
      have h1 := hvperm.erase m
      rw [List.erase_append_right _ hmnotin, List.erase_cons_head, List.append_nil] at h1
      exact h1
    have hloop : sorted_value dirs = sortedValueLoop (candidates0 dirs) := by
      rw [sorted_value, if_neg]
      have := List.length_pos.mpr (List.ne_nil_of_mem hm)
      omega
    have hperm2 : (sorted_value dirs).Perm ((validNames dirs).erase m) := by
      rw [hloop]
      have h1 := sortedValueLoop_perm (candidates0 dirs)
      rw [candidates0_map_fst] at h1
      exact h1.trans herase.symm
    refine ⟨hperm2, sorted_value_length dirs, ?_⟩
    intro hc
    have h2 := hperm2.mem_iff.mp hc
    rw [hndv.mem_erase_iff] at h2
    exact h2.1 rfl
  · intro hlen
    have := sorted_value_length dirs
    have hz : (sorted_value dirs).length = 0 := by omega
    exact List.length_eq_zero.mp hz

/-- Three-snapshot name list used by the planner witnesses. -/
def names3 : List String := ["20101201-000000", "20101201-010000", "20101201-020000"]

theorem timef_eq_of_instant {x : String} {t : ℤ} (h : instant x = some t) :
    timef x = some (valueOfInstant t) := by
  rw [timef, h]
  rfl

/-- Closed witness for C1 on three hourly snapshots, with the newest one as
the strict value maximum. -/
theorem claim_C1_witness :
    (sorted_value names3).Perm ((validNames names3).erase "20101201-020000") ∧
    (sorted_value names3).length = (validNames names3).length - 1 ∧
    "20101201-020000" ∉ sorted_value names3 := by
  refine (claim_C1 names3 (by decide)).1 "20101201-020000" (valueOfInstant 1291168800)
    (by decide) (timef_eq_of_instant (by decide)) ?_ (by decide)
  intro y vy hy hvy hne
  fin_cases hy
  · have h1 : timef "20101201-000000" = some (valueOfInstant 1291161600) :=
      timef_eq_of_instant (by decide)
    rw [h1] at hvy
    injection hvy with hvy
    rw [← hvy]
    exact valueOfInstant_lt (by norm_num)
  · have h1 : timef "20101201-010000" = some (valueOfInstant 1291165200) :=
      timef_eq_of_instant (by decide)
    rw [h1] at hvy
    injection hvy with hvy
    rw [← hvy]
    exact valueOfInstant_lt (by norm_num)
  · exact absurd rfl hne

theorem snd_mem_tail_of_mem_poles {α : Type _} :
    ∀ (l : List α) (p : α × α), p ∈ poles l → p.2 ∈ l.tail
  | [], p, hp => by simp [poles] at hp
  | [a], p, hp => by simp [poles] at hp
  | a :: b :: r, p, hp => by
    rw [poles] at hp
    rcases List.mem_cons.mp hp with h | h
    · rw [h]
      exact List.mem_cons_self b r
    · exact List.mem_cons_of_mem b (snd_mem_tail_of_mem_poles (b :: r) p h)

theorem key_unique {c : List (String × ℝ)} (hnd : (c.map Prod.fst).Nodup)
    {p q : String × ℝ} (hp : p ∈ c) (hq : q ∈ c) (hk : p.1 = q.1) : p = q :=
  List.inj_on_of_nodup_map hnd hp hq hk

theorem sortedValueLoop_getLast :
    ∀ (c : List (String × ℝ)), (c.map Prod.fst).Nodup →
      ∀ (mn : String) (vmn : ℝ), (mn, vmn) ∈ c →
      (∀ p ∈ c, p.1 ≠ mn → vmn < p.2) →
      (sortedValueLoop c).getLast? = some mn := by
  intro c
  generalize hn : c.length = n
  induction n using Nat.strong_induction_on generalizing c with
  | _ n ih =>
    intro hnd mn vmn hmem hmin
    by_cases h : 1 < c.length
    · obtain ⟨m, hm, hlt⟩ := exists_pymin_of_one_lt c h
      rw [sortedValueLoop_eq_of_pymin h hm]
      have hperm : (sortPairs (c.map Prod.swap)).Perm (c.map Prod.swap) :=
        List.perm_insertionSort pairLe _
      have hndr : ((sortPairs (c.map Prod.swap)).map Prod.snd).Nodup := by
        have h1 : ((c.map Prod.swap).map Prod.snd).Nodup := by
          rw [List.map_map]
          exact hnd
        exact (hperm.map Prod.snd).nodup_iff.mpr h1
      have hmemr : (vmn, mn) ∈ sortPairs (c.map Prod.swap) := by
        apply hperm.mem_iff.mpr
        exact List.mem_map.mpr ⟨(mn, vmn), hmem, rfl⟩
      have hminr : ∀ y ∈ sortPairs (c.map Prod.swap), y ≠ (vmn, mn) →
          (vmn, mn).1 < y.1 := by
        intro y hy hyne
        obtain ⟨q, hq, hqe⟩ := List.mem_map.mp (hperm.mem_iff.mp hy)
        by_cases hc1 : q.1 = mn
        · exfalso
          apply hyne
          have hq2 : q = (mn, vmn) := key_unique hnd hq hmem hc1
          rw [← hqe, hq2]
          rfl
        · have := hmin q hq hc1
          rw [← hqe]
          exact this
      obtain ⟨t, ht⟩ := sorted_head_eq_of_min
        (show (sortPairs (c.map Prod.swap)).Sorted pairLe from
          List.sorted_insertionSort pairLe _) hmemr hminr
      have hkeyne : m.2.2 ≠ mn := by
        have hmm := pyminList_eq_some hm
        obtain ⟨p, hp, hpe⟩ := List.mem_map.mp hmm
        have htail : p.2 ∈ (sortPairs (c.map Prod.swap)).tail :=
          snd_mem_tail_of_mem_poles _ _ hp
        intro hc2
        have hsndm : p.2.2 = mn := by rw [← hpe] at hc2; exact hc2
        rw [ht] at hndr htail
        rw [List.map_cons] at hndr
        apply (List.nodup_cons.mp hndr).1
        rw [show ((vmn, mn) : ℝ × String).2 = mn from rfl, ← hsndm]
        exact List.mem_map_of_mem Prod.snd htail
      have hmem2 : (mn, vmn) ∈ eraseKey m.2.2 c := by
        rw [eraseKey]
        exact (List.mem_eraseP_of_neg (by simp [hkeyne.symm])).mpr hmem
      have hnd2 : ((eraseKey m.2.2 c).map Prod.fst).Nodup := by
        rw [eraseKey, map_fst_eraseP_key]
        exact hnd.sublist (List.eraseP_sublist _)
      have hmin2 : ∀ p ∈ eraseKey m.2.2 c, p.1 ≠ mn → vmn < p.2 := by
        intro p hp hpne
        exact hmin p (List.mem_of_mem_eraseP hp) hpne
      have hrec := ih (eraseKey m.2.2 c).length (by omega) (eraseKey m.2.2 c) rfl
        hnd2 mn vmn hmem2 hmin2
      have hne2 : sortedValueLoop (eraseKey m.2.2 c) ≠ [] := by
        intro hc2
        rw [hc2] at hrec
        cases hrec
      obtain ⟨z, zs, hz⟩ := List.exists_cons_of_ne_nil hne2
      rw [hz] at hrec ⊢
      rw [List.getLast?_cons_cons]
      exact hrec
    · rcases c with _ | ⟨x, _ | ⟨y, r⟩⟩
      · cases hmem
      · rw [sortedValueLoop_single]
        have hx : x = (mn, vmn) := (List.mem_singleton.mp hmem).symm
        rw [hx]
        rfl
      · simp at h

/-- C10: for a duplicate-free input with at least two valid identifiers
whose valid members have a strict minimum-value (oldest) element `mn`, the
planner's output ends with `mn`: only the later member of a selected
adjacent pair is ever removed during the loop, so the oldest candidate
survives until it is the final unconditional yield. -/
theorem claim_C10 (dirs : List String) (hnd : dirs.Nodup)
    (hlen : 2 ≤ (validNames dirs).length)
    (mn : String) (vmn : ℝ) (hmem : mn ∈ dirs) (hv : timef mn = some vmn)
    (hmin : ∀ y vy, y ∈ dirs → timef y = some vy → y ≠ mn → vmn < vy) :
    (sorted_value dirs).getLast? = some mn := by
  have hvmp : (vmn, mn) ∈ validPairs dirs := mem_validPairs.mpr ⟨hmem, hv⟩
  have hperm : (sortPairs (validPairs dirs)).Perm (validPairs dirs) :=
    List.perm_insertionSort pairLe _
  have hvmp2 : (vmn, mn) ∈ sortPairs (validPairs dirs) := hperm.mem_iff.mpr hvmp
  have hminr : ∀ y ∈ sortPairs (validPairs dirs), y ≠ (vmn, mn) →
      ((vmn, mn) : ℝ × String).1 < y.1 := by
    intro y hy hyne
    have hy2 := mem_validPairs.mp (hperm.mem_iff.mp hy)
    by_cases hc : y.2 = mn
    · exfalso
      apply hyne
      rw [hc] at hy2
      rw [hv] at hy2
      injection hy2.2 with h2
      rw [Prod.ext_iff]
      exact ⟨h2.symm, hc⟩
    · exact hmin y.2 y.1 hy2.1 hy2.2 hc
  obtain ⟨t, ht⟩ := sorted_head_eq_of_min
    (show (sortPairs (validPairs dirs)).Sorted pairLe from
      List.sorted_insertionSort pairLe _) hvmp2 hminr
  have htne : t ≠ [] := by
    intro hc
    have hl := sortPairs_length (validPairs dirs)
    rw [ht, hc, validPairs_length] at hl
    simp at hl
    omega
  have hmemd : (vmn, mn) ∈ (sortPairs (validPairs dirs)).dropLast := by
    rw [ht, List.dropLast_cons_of_ne_nil htne]
    exact List.mem_cons_self _ _
  have hmemc : (mn, vmn) ∈ candidates0 dirs := by
    rw [candidates0]
    exact List.mem_map.mpr ⟨(vmn, mn), hmemd, rfl⟩
  have hndv : (validNames dirs).Nodup := hnd.filter _
  have hnds : ((sortPairs (validPairs dirs)).map Prod.snd).Nodup := by
    have h1 : ((validPairs dirs).map Prod.snd).Nodup := by
      rw [validPairs_map_snd]
      exact hndv
    exact (hperm.map Prod.snd).nodup_iff.mpr h1
  have hndc : ((candidates0 dirs).map Prod.fst).Nodup := by
    rw [candidates0_map_fst]
    exact hnds.sublist ((List.dropLast_sublist _).map Prod.snd)
  have hminc : ∀ p ∈ candidates0 dirs, p.1 ≠ mn → vmn < p.2 := by
    intro p hp hpn
    rw [candidates0] at hp
    obtain ⟨q, hq, hqe⟩ := List.mem_map.mp hp
    have hq2 : q ∈ validPairs dirs :=
      hperm.mem_iff.mp (List.dropLast_subset _ hq)
    have hq3 := mem_validPairs.mp hq2
    have hqp : q.2 = p.1 := by rw [← hqe]; rfl
    have hqv : q.1 = p.2 := by rw [← hqe]; rfl
    rw [← hqv]
    exact hmin q.2 q.1 hq3.1 hq3.2 (by rw [hqp]; exact hpn)
  have hdne : dirs ≠ [] := List.ne_nil_of_mem hmem
  rw [sorted_value, if_neg (by
    have := List.length_pos.mpr hdne
    omega)]
  exact sortedValueLoop_getLast (candidates0 dirs) hndc mn vmn hmemc hminc

/-- Closed witness for C10 on three hourly snapshots: the oldest one is the
final element of the planner output. -/
theorem claim_C10_witness : (sorted_value names3).getLast? = some "20101201-000000" := by
  apply claim_C10 names3 (by decide) (by decide) "20101201-000000"
    (valueOfInstant 1291161600) (by decide) (timef_eq_of_instant (by decide))
  intro y vy hy hvy hne
  fin_cases hy
  · exact absurd rfl hne
  · have h1 : timef "20101201-010000" = some (valueOfInstant 1291165200) :=
      timef_eq_of_instant (by decide)
    rw [h1] at hvy
    injection hvy with hvy
    rw [← hvy]
    exact valueOfInstant_lt (by norm_num)
  · have h1 : timef "20101201-020000" = some (valueOfInstant 1291168800) :=
      timef_eq_of_instant (by decide)
    rw [h1] at hvy
    injection hvy with hvy
    rw [← hvy]
    exact valueOfInstant_lt (by norm_num)

theorem tripLt_irrefl (a : ℝ × String × String) : ¬ tripLt a a := by
  rw [tripLt]
  simp [lt_irrefl]

theorem tripLt_trans {a b c : ℝ × String × String}
    (h1 : tripLt a b) (h2 : tripLt b c) : tripLt a c := by
  rcases h1 with h1 | ⟨e1, h1⟩
  · rcases h2 with h2 | ⟨e2, _⟩
    · exact Or.inl (lt_trans h1 h2)
    · exact Or.inl (e2 ▸ h1)
  · rcases h2 with h2 | ⟨e2, h2⟩
    · exact Or.inl (e1 ▸ h2)
    · refine Or.inr ⟨e1.trans e2, ?_⟩
      rcases h1 with h1 | ⟨f1, h1⟩
      · rcases h2 with h2 | ⟨f2, _⟩
        · exact Or.inl (lt_trans h1 h2)
        · exact Or.inl (f2 ▸ h1)
      · rcases h2 with h2 | ⟨f2, h2⟩
        · exact Or.inl (f1 ▸ h2)
        · exact Or.inr ⟨f1.trans f2, lt_trans h1 h2⟩

theorem tripLt_connex {a b : ℝ × String × String} (h : a ≠ b) :
    tripLt a b ∨ tripLt b a := by
  rcases lt_trichotomy a.1 b.1 with h1 | h1 | h1
  · exact Or.inl (Or.inl h1)
  · rcases lt_trichotomy a.2.1 b.2.1 with h2 | h2 | h2
    · exact Or.inl (Or.inr ⟨h1, Or.inl h2⟩)
    · rcases lt_trichotomy a.2.2 b.2.2 with h3 | h3 | h3
      · exact Or.inl (Or.inr ⟨h1, Or.inr ⟨h2, h3⟩⟩)
      · exfalso
        apply h
        rw [Prod.ext_iff, Prod.ext_iff]
        exact ⟨h1, h2, h3⟩
      · exact Or.inr (Or.inr ⟨h1.symm, Or.inr ⟨h2.symm, h3⟩⟩)
    · exact Or.inr (Or.inr ⟨h1.symm, Or.inl h2⟩)
  · exact Or.inr (Or.inl h1)

theorem pyminAcc_le (a : ℝ × String × String) (l : List (ℝ × String × String)) :
    ∀ x ∈ a :: l, ¬ tripLt x (pyminAcc a l) := by
  induction l generalizing a with
  | nil =>
    intro x hx
    rw [List.mem_singleton.mp hx, pyminAcc]
    exact tripLt_irrefl a
  | cons y l ih =>
    intro x hx
    rw [pyminAcc]
    by_cases hya : tripLt y a
    · rw [if_pos hya]
      rcases List.mem_cons.mp hx with hxa | hx2
      · intro hc
        rw [hxa] at hc
        exact ih y y (List.mem_cons_self y l) (tripLt_trans hya hc)
      · exact ih y x hx2
    · rw [if_neg hya]
      rcases List.mem_cons.mp hx with hxa | hx2
      · intro hc
        rw [hxa] at hc
        exact ih a a (List.mem_cons_self a l) hc
      · rcases List.mem_cons.mp hx2 with hxy | hxl
        · intro hc
          by_cases hax : a = x
          · exact ih a a (List.mem_cons_self a l) (hax ▸ hc)
          · rcases tripLt_connex hax with h3 | h3
            · exact ih a a (List.mem_cons_self a l) (tripLt_trans h3 hc)
            · exact hya (hxy ▸ h3)
        · exact ih a x (List.mem_cons_of_mem a hxl)

theorem poles_fst_inj {l : List (ℝ × String)} (hnd : (l.map Prod.snd).Nodup) :
    ∀ p ∈ poles l, ∀ q ∈ poles l, p.1.2 = q.1.2 → p = q := by
  induction l with
  | nil =>
    intro p hp
    simp [poles] at hp
  | cons a t ih =>
    cases t with
    | nil =>
      intro p hp
      simp [poles] at hp
    | cons b r =>
      intro p hp q hq he
      rw [poles] at hp hq
      rw [List.map_cons] at hnd
      have hna : a.2 ∉ (b :: r).map Prod.snd := (List.nodup_cons.mp hnd).1
      have hnd2 : ((b :: r).map Prod.snd).Nodup := (List.nodup_cons.mp hnd).2
      rcases List.mem_cons.mp hp with hp1 | hp2 <;> rcases List.mem_cons.mp hq with hq1 | hq2
      · rw [hp1, hq1]
      · exfalso
        apply hna
        have hqm : q.1 ∈ b :: r := fst_mem_of_mem_poles _ _ hq2
        rw [hp1] at he
        rw [show a.2 = q.1.2 from he]
        exact List.mem_map_of_mem Prod.snd hqm
      · exfalso
        apply hna
        have hpm : p.1 ∈ b :: r := fst_mem_of_mem_poles _ _ hp2
        rw [hq1] at he
        rw [show a.2 = p.1.2 from he.symm]
        exact List.mem_map_of_mem Prod.snd hpm
      · exact ih hnd2 p hp2 q hq2 he

theorem pyminList_le {l : List (ℝ × String × String)} {m : ℝ × String × String}
    (h : pyminList l = some m) : ∀ x ∈ l, ¬ tripLt x m := by
  cases l with
  | nil => cases h
  | cons x xs =>
    rw [pyminList] at h
    injection h with h
    exact h ▸ pyminAcc_le x xs

/-- C2: one round of the planner loop, characterised as the specification
describes it.  While more than one candidate remains, there is an adjacent
pair of the value-ascending candidate ordering whose loss score
`value(to) - value(frm)` is minimal, ties broken by the earlier member
`frm` in lexical order (strictly: every other scored pair has a strictly
larger loss, or an equal loss and a strictly larger earlier identifier);
its later member `to` is removed from the candidate set and is the next
element yielded.  With exactly one candidate remaining, that candidate is
yielded unconditionally. -/
theorem claim_C2 (c : List (String × ℝ)) (hnd : (c.map Prod.fst).Nodup) :
    (1 < c.length →
      ∃ d frm tgt, (d, frm, tgt) ∈ diffsOf (sortPairs (c.map Prod.swap)) ∧
        (∀ q ∈ diffsOf (sortPairs (c.map Prod.swap)), q ≠ (d, frm, tgt) →
          d < q.1 ∨ (d = q.1 ∧ frm < q.2.1)) ∧
        sortedValueLoop c = tgt :: sortedValueLoop (eraseKey tgt c)) ∧
    (c.length = 1 → sortedValueLoop c = c.map Prod.fst) := by
  constructor
  · intro h
    obtain ⟨m, hm, _⟩ := exists_pymin_of_one_lt c h
    have hmem := pyminList_eq_some hm
    have hndr : ((sortPairs (c.map Prod.swap)).map Prod.snd).Nodup := by
      have hperm : (sortPairs (c.map Prod.swap)).Perm (c.map Prod.swap) :=
        List.perm_insertionSort pairLe _
      have h1 : ((c.map Prod.swap).map Prod.snd).Nodup := by
        rw [List.map_map]
        exact hnd
      exact (hperm.map Prod.snd).nodup_iff.mpr h1
    refine ⟨m.1, m.2.1, m.2.2, hmem, ?_, sortedValueLoop_eq_of_pymin h hm⟩
    intro q hq hqne
    have hqle : ¬ tripLt q m := pyminList_le hm q hq
    have hqnem : q ≠ m := hqne
    rcases @tripLt_connex m q (fun he => hqnem he.symm) with h3 | h3
    · rcases h3 with h3 | ⟨e3, h3⟩
      · exact Or.inl h3
      · rcases h3 with h3 | ⟨e4, _⟩
        · exact Or.inr ⟨e3, h3⟩
        · exfalso
          apply hqnem
          obtain ⟨p, hp, hpe⟩ := List.mem_map.mp hmem
          obtain ⟨p2, hp2, hpe2⟩ := List.mem_map.mp hq
          have hfrm : p.1.2 = p2.1.2 := by
            rw [← hpe] at e4
            rw [← hpe2] at e4
            exact e4
          have := poles_fst_inj hndr p hp p2 hp2 hfrm
          rw [← hpe, ← hpe2, this]
    · exact absurd h3 hqle
  · intro h
    rcases c with _ | ⟨x, _ | ⟨y, r⟩⟩
    · cases h
    · rw [sortedValueLoop_single]
      rfl
    · simp at h

/-- Two-candidate set used by the C2 witness. -/
def cW : List (String × ℝ) := [("20101201-000000", 0), ("20101201-010000", 1)]

/-- Closed witness for C2 at a concrete two-candidate set. -/
theorem claim_C2_witness :
    ∃ d frm tgt, (d, frm, tgt) ∈ diffsOf (sortPairs (cW.map Prod.swap)) ∧
      (∀ q ∈ diffsOf (sortPairs (cW.map Prod.swap)), q ≠ (d, frm, tgt) →
        d < q.1 ∨ (d = q.1 ∧ frm < q.2.1)) ∧
      sortedValueLoop cW = tgt :: sortedValueLoop (eraseKey tgt cW) :=
  (claim_C2 cW (by decide)).1 (by decide)

theorem string_lt_iff_lex (a b : String) :
    a < b ↔ List.Lex (· < ·) a.data b.data := by
  constructor
  · intro h
    exact String.lt_iff_toList_lt.mp h
  · intro h
    exact String.lt_iff_toList_lt.mpr h

theorem valueOfInstant_lt_iff {s t : ℤ} : valueOfInstant s < valueOfInstant t ↔ s < t := by
  constructor
  · intro h
    by_contra hc
    rcases lt_or_eq_of_le (not_lt.mp hc) with h2 | h2
    · exact absurd h (lt_asymm (valueOfInstant_lt h2))
    · rw [h2] at h
      exact lt_irrefl _ h
  · exact valueOfInstant_lt

/-- Counterexample to C7 as stated: `"20101106-000000"` (November 6) is
lexically smaller than the also-parseable `"2010115-000000"` (which
CPython's `strptime` reads as November 5 via the one-digit day
alternative), yet its value is larger. -/
theorem claim_C7_counterexample :
    ¬ (∀ (a b : String) (va vb : ℝ), timef a = some va → timef b = some vb →
        (a < b ↔ va < vb)) := by
  intro hall
  have h := hall "20101106-000000" "2010115-000000"
    (valueOfInstant 1289001600) (valueOfInstant 1288915200)
    (timef_eq_of_instant (by decide)) (timef_eq_of_instant (by decide))
  have hlt : ("20101106-000000" : String) < "2010115-000000" :=
    (string_lt_iff_lex _ _).mpr (by decide)
  have hv := h.mp hlt
  rw [valueOfInstant_lt_iff] at hv
  omega

/-- Digit character of a single decimal digit (clamping larger inputs). -/
def dchar : Nat → Char
  | 0 => '0' | 1 => '1' | 2 => '2' | 3 => '3' | 4 => '4'
  | 5 => '5' | 6 => '6' | 7 => '7' | 8 => '8' | _ => '9'

/-- Two-digit zero-padded rendering of `n ≤ 99`. -/
def pad2 (n : Nat) : List Char := [dchar (n / 10), dchar (n % 10)]

/-- Four-digit zero-padded rendering of `n ≤ 9999`. -/
def pad4 (n : Nat) : List Char :=
  [dchar (n / 1000), dchar (n / 100 % 10), dchar (n / 10 % 10), dchar (n % 10)]

/-- The canonical `YYYYMMDD-HHMMSS` rendering of a broken-down time. -/
def render (y mo dy h mi s : Nat) : String :=
  ⟨pad4 y ++ (pad2 mo ++ (pad2 dy ++ ('-' :: (pad2 h ++ (pad2 mi ++ pad2 s)))))⟩

/-- Canonically formatted real calendar date-times: the domain on which the
lexical ordering of identifiers is claimed to agree with the value
ordering. -/
def validDT (y mo dy h mi s : Nat) : Prop :=
  y ≤ 9999 ∧ 1 ≤ mo ∧ mo ≤ 12 ∧ 1 ≤ dy ∧ dy ≤ monthDays (isLeap y) mo ∧
    h ≤ 23 ∧ mi ≤ 59 ∧ s ≤ 59

theorem isDigit_dchar (n : Nat) : (dchar n).isDigit = true := by
  unfold dchar
  split <;> decide

theorem dval_dchar {n : Nat} (h : n ≤ 9) : dval (dchar n) = n := by
  interval_cases n <;> decide

theorem dchar_lt_iff {a b : Nat} (ha : a ≤ 9) (hb : b ≤ 9) :
    dchar a < dchar b ↔ a < b := by
  interval_cases a <;> interval_cases b <;> decide

theorem dchar_eq_iff {a b : Nat} (ha : a ≤ 9) (hb : b ≤ 9) :
    dchar a = dchar b ↔ a = b := by
  interval_cases a <;> interval_cases b <;> decide

theorem dchar_beq_slash (n : Nat) : (dchar n == '/') = false := by
  unfold dchar
  split <;> decide

theorem takeWhile_all {p : Char → Bool} :
    ∀ l : List Char, (∀ c ∈ l, p c = true) → l.takeWhile p = l
  | [], _ => rfl
  | c :: l, h => by
    rw [List.takeWhile_cons, h c (List.mem_cons_self c l)]
    rw [takeWhile_all l fun x hx => h x (List.mem_cons_of_mem c hx)]
    rfl

theorem basename_eq_self {s : String} (h : ∀ c ∈ s.data, (c == '/') = false) :
    basename s = s := by
  rw [basename]
  rw [takeWhile_all _ (fun c hc => by
    rw [h c (List.mem_reverse.mp hc)]
    rfl)]
  rw [List.reverse_reverse]

theorem pad2_no_slash {n : Nat} {c : Char} (h : c ∈ pad2 n) : (c == '/') = false := by
  rcases List.mem_cons.mp h with h1 | h1
  · rw [h1]
    exact dchar_beq_slash _
  · rw [List.mem_singleton.mp h1]
    exact dchar_beq_slash _

theorem pad4_no_slash {n : Nat} {c : Char} (h : c ∈ pad4 n) : (c == '/') = false := by
  rcases List.mem_cons.mp h with h1 | h1
  · rw [h1]; exact dchar_beq_slash _
  rcases List.mem_cons.mp h1 with h2 | h2
  · rw [h2]; exact dchar_beq_slash _
  rcases List.mem_cons.mp h2 with h3 | h3
  · rw [h3]; exact dchar_beq_slash _
  · rw [List.mem_singleton.mp h3]
    exact dchar_beq_slash _

theorem render_no_slash (y mo dy h mi s : Nat) :
    ∀ c ∈ (render y mo dy h mi s).data, (c == '/') = false := by
  intro c hc
  have hc2 : c ∈ pad4 y ++ (pad2 mo ++ (pad2 dy ++
      ('-' :: (pad2 h ++ (pad2 mi ++ pad2 s))))) := hc
  rcases List.mem_append.mp hc2 with h1 | h1
  · exact pad4_no_slash h1
  rcases List.mem_append.mp h1 with h2 | h2
  · exact pad2_no_slash h2
  rcases List.mem_append.mp h2 with h3 | h3
  · exact pad2_no_slash h3
  rcases List.mem_cons.mp h3 with h4 | h4
  · rw [h4]; rfl
  rcases List.mem_append.mp h4 with h5 | h5
  · exact pad2_no_slash h5
  rcases List.mem_append.mp h5 with h6 | h6
  · exact pad2_no_slash h6
  · exact pad2_no_slash h6

theorem altsY_pad4 {y : Nat} (hy : y ≤ 9999) (r : List Char) :
    altsY (pad4 y ++ r) = [(y, r)] := by
  show altsY (dchar (y / 1000) :: dchar (y / 100 % 10) :: dchar (y / 10 % 10) ::
    dchar (y % 10) :: r) = _
  rw [show altsY (dchar (y / 1000) :: dchar (y / 100 % 10) :: dchar (y / 10 % 10) ::
      dchar (y % 10) :: r) =
    (if (dchar (y / 1000)).isDigit && (dchar (y / 100 % 10)).isDigit &&
        (dchar (y / 10 % 10)).isDigit && (dchar (y % 10)).isDigit then
      [(((dval (dchar (y / 1000)) * 10 + dval (dchar (y / 100 % 10))) * 10 +
          dval (dchar (y / 10 % 10))) * 10 + dval (dchar (y % 10)), r)]
    else []) from rfl]
  rw [if_pos (by simp [isDigit_dchar])]
  rw [dval_dchar (by omega : y / 1000 ≤ 9), dval_dchar (by omega : y / 100 % 10 ≤ 9),
    dval_dchar (by omega : y / 10 % 10 ≤ 9), dval_dchar (by omega : y % 10 ≤ 9)]
  have hval : ((y / 1000 * 10 + y / 100 % 10) * 10 + y / 10 % 10) * 10 + y % 10 = y := by
    omega
  rw [hval]

theorem altsMon_pad2 {mo : Nat} (h1 : 1 ≤ mo) (h2 : mo ≤ 12) (r : List Char) :
    ∃ j, altsMon (pad2 mo ++ r) = (mo, r) :: j := by
  interval_cases mo <;> exact ⟨_, rfl⟩

theorem altsDay_pad2 {dy : Nat} (h1 : 1 ≤ dy) (h2 : dy ≤ 31) (r : List Char) :
    ∃ j, altsDay (pad2 dy ++ r) = (dy, r) :: j := by
  interval_cases dy <;> exact ⟨_, rfl⟩

theorem altsHour_pad2 {h : Nat} (h2 : h ≤ 23) (r : List Char) :
    ∃ j, altsHour (pad2 h ++ r) = (h, r) :: j := by
  interval_cases h <;> exact ⟨_, rfl⟩

theorem altsMin_pad2 {mi : Nat} (h2 : mi ≤ 59) (r : List Char) :
    ∃ j, altsMin (pad2 mi ++ r) = (mi, r) :: j := by
  interval_cases mi <;> exact ⟨_, rfl⟩

theorem altsSec_pad2 {s : Nat} (h2 : s ≤ 59) (r : List Char) :
    ∃ j, altsSec (pad2 s ++ r) = (s, r) :: j := by
  interval_cases s <;> exact ⟨_, rfl⟩

theorem findSome?_cons_of_some {α β : Type _} {f : α → Option β} {a : α} {l : List α}
    {b : β} (h : f a = some b) : List.findSome? f (a :: l) = some b := by
  rw [List.findSome?_cons, h]

theorem monthDays_le_31 (leap : Bool) (mo : Nat) : monthDays leap mo ≤ 31 := by
  unfold monthDays
  split <;> first | omega | (cases leap <;> simp)

theorem strptimeDF_render (y mo dy h mi s : Nat) (hv : validDT y mo dy h mi s) :
    strptimeDF (render y mo dy h mi s).data = some ⟨y, mo, dy, h, mi, s⟩ := by
  obtain ⟨hy, hmo1, hmo2, hdy1, hdy2, hh, hmi2, hs⟩ := hv
  have hdy31 : dy ≤ 31 := le_trans hdy2 (monthDays_le_31 _ _)
  have hb : (render y mo dy h mi s).data = pad4 y ++ (pad2 mo ++ (pad2 dy ++
      ('-' :: (pad2 h ++ (pad2 mi ++ pad2 s))))) := rfl
  obtain ⟨j2, hj2⟩ := altsMon_pad2 hmo1 hmo2
    (pad2 dy ++ ('-' :: (pad2 h ++ (pad2 mi ++ pad2 s))))
  obtain ⟨j3, hj3⟩ := altsDay_pad2 hdy1 hdy31 ('-' :: (pad2 h ++ (pad2 mi ++ pad2 s)))
  obtain ⟨j5, hj5⟩ := altsHour_pad2 hh (pad2 mi ++ pad2 s)
  obtain ⟨j6, hj6⟩ := altsMin_pad2 hmi2 (pad2 s)
  obtain ⟨j7, hj7⟩ := altsSec_pad2 hs ([] : List Char)
  rw [List.append_nil] at hj7
  rw [hb, strptimeDF, altsY_pad4 hy]
  apply findSome?_cons_of_some
  try dsimp only
  rw [hj2]
  apply findSome?_cons_of_some
  try dsimp only
  rw [hj3]
  apply findSome?_cons_of_some
  try dsimp only
  rw [show altsDash ('-' :: (pad2 h ++ (pad2 mi ++ pad2 s))) =
    [pad2 h ++ (pad2 mi ++ pad2 s)] from rfl]
  apply findSome?_cons_of_some
  try dsimp only
  rw [hj5]
  apply findSome?_cons_of_some
  try dsimp only
  rw [hj6]
  apply findSome?_cons_of_some
  try dsimp only
  rw [hj7]
  apply findSome?_cons_of_some
  try dsimp only
  rw [if_pos rfl]

theorem instant_render (y mo dy h mi s : Nat) (hv : validDT y mo dy h mi s) :
    instant (render y mo dy h mi s) = some (epochSecs ⟨y, mo, dy, h, mi, s⟩) := by
  rw [instant, basename_eq_self (render_no_slash y mo dy h mi s),
    strptimeDF_render y mo dy h mi s hv]
  rfl

/-- Lexicographic comparison of two broken-down times, field by field. -/
def fieldLex (f g : TimeFields) : Prop :=
  f.year < g.year ∨ (f.year = g.year ∧ (f.mon < g.mon ∨ (f.mon = g.mon ∧
    (f.mday < g.mday ∨ (f.mday = g.mday ∧ (f.hour < g.hour ∨ (f.hour = g.hour ∧
    (f.minute < g.minute ∨ (f.minute = g.minute ∧ f.sec < g.sec)))))))))

theorem lex_cons_iff {x y : Char} {xs ys : List Char} :
    List.Lex (· < ·) (x :: xs) (y :: ys) ↔ x < y ∨ (x = y ∧ List.Lex (· < ·) xs ys) := by
  constructor
  · intro h
    cases h with
    | cons h => exact Or.inr ⟨rfl, h⟩
    | rel h => exact Or.inl h
  · rintro (h | ⟨rfl, h⟩)
    · exact List.Lex.rel h
    · exact List.Lex.cons h

theorem lex_pad2_append {a b : Nat} (ha : a ≤ 99) (hb : b ≤ 99) (r1 r2 : List Char) :
    List.Lex (· < ·) (pad2 a ++ r1) (pad2 b ++ r2) ↔
      a < b ∨ (a = b ∧ List.Lex (· < ·) r1 r2) := by
  show List.Lex (· < ·) (dchar (a / 10) :: dchar (a % 10) :: r1)
      (dchar (b / 10) :: dchar (b % 10) :: r2) ↔ _
  rw [lex_cons_iff, lex_cons_iff]
  rw [dchar_lt_iff (by omega) (by omega), dchar_eq_iff (by omega) (by omega),
    dchar_lt_iff (by omega) (by omega), dchar_eq_iff (by omega) (by omega)]
  constructor
  · rintro (h | ⟨e, h | ⟨e2, h⟩⟩)
    · exact Or.inl (by omega)
    · exact Or.inl (by omega)
    · exact Or.inr ⟨by omega, h⟩
  · rintro (h | ⟨e, h⟩)
    · by_cases h10 : a / 10 < b / 10
      · exact Or.inl h10
      · exact Or.inr ⟨by omega, Or.inl (by omega)⟩
    · exact Or.inr ⟨by omega, Or.inr ⟨by omega, h⟩⟩

theorem pad4_eq_pad2 (y : Nat) : pad4 y = pad2 (y / 100) ++ pad2 (y % 100) := by
  rw [pad4, pad2, pad2]
  have e1 : y / 100 / 10 = y / 1000 := by omega
  have e2 : y % 100 / 10 = y / 10 % 10 := by omega
  have e3 : y % 100 % 10 = y % 10 := by omega
  rw [e1, e2, e3]
  rfl

theorem lex_pad4_append {a b : Nat} (ha : a ≤ 9999) (hb : b ≤ 9999) (r1 r2 : List Char) :
    List.Lex (· < ·) (pad4 a ++ r1) (pad4 b ++ r2) ↔
      a < b ∨ (a = b ∧ List.Lex (· < ·) r1 r2) := by
  rw [pad4_eq_pad2, pad4_eq_pad2, List.append_assoc, List.append_assoc]
  rw [lex_pad2_append (by omega) (by omega), lex_pad2_append (by omega) (by omega)]
  constructor
  · rintro (h | ⟨e, h | ⟨e2, h⟩⟩)
    · exact Or.inl (by omega)
    · exact Or.inl (by omega)
    · exact Or.inr ⟨by omega, h⟩
  · rintro (h | ⟨e, h⟩)
    · by_cases hq : a / 100 < b / 100
      · exact Or.inl hq
      · exact Or.inr ⟨by omega, Or.inl (by omega)⟩
    · exact Or.inr ⟨by omega, Or.inr ⟨by omega, h⟩⟩

theorem render_lt_iff_fieldLex {y1 mo1 dy1 h1 mi1 s1 y2 mo2 dy2 h2 mi2 s2 : Nat}
    (hv1 : validDT y1 mo1 dy1 h1 mi1 s1) (hv2 : validDT y2 mo2 dy2 h2 mi2 s2) :
    (render y1 mo1 dy1 h1 mi1 s1 < render y2 mo2 dy2 h2 mi2 s2) ↔
      fieldLex ⟨y1, mo1, dy1, h1, mi1, s1⟩ ⟨y2, mo2, dy2, h2, mi2, s2⟩ := by
  obtain ⟨hy1, hmo1a, hmo1b, hdy1a, hdy1b, hh1, hmi1b, hs1b⟩ := hv1
  obtain ⟨hy2, hmo2a, hmo2b, hdy2a, hdy2b, hh2, hmi2b, hs2b⟩ := hv2
  have hdy31a : dy1 ≤ 31 := le_trans hdy1b (monthDays_le_31 _ _)
  have hdy31b : dy2 ≤ 31 := le_trans hdy2b (monthDays_le_31 _ _)
  rw [string_lt_iff_lex]
  show List.Lex (· < ·)
      (pad4 y1 ++ (pad2 mo1 ++ (pad2 dy1 ++ ('-' :: (pad2 h1 ++ (pad2 mi1 ++ pad2 s1))))))
      (pad4 y2 ++ (pad2 mo2 ++ (pad2 dy2 ++ ('-' :: (pad2 h2 ++ (pad2 mi2 ++ pad2 s2))))))
      ↔ _
  rw [lex_pad4_append hy1 hy2,
    lex_pad2_append (by omega) (by omega),
    lex_pad2_append (by omega) (by omega),
    lex_cons_iff,
    lex_pad2_append (by omega) (by omega),
    lex_pad2_append (by omega) (by omega)]
  rw [show (pad2 s1 : List Char) = pad2 s1 ++ [] from (List.append_nil _).symm,
    show (pad2 s2 : List Char) = pad2 s2 ++ [] from (List.append_nil _).symm,
    lex_pad2_append (by omega) (by omega)]
  simp only [fieldLex, lt_self_iff_false, false_or, true_and, List.Lex.not_nil_right,
    and_false, or_false]

theorem cumMonth_mono (leap : Bool) {mo1 mo2 : Nat} (h1 : 1 ≤ mo1) (hlt : mo1 < mo2)
    (h2 : mo2 ≤ 12) : cumMonth leap mo1 + monthDays leap mo1 ≤ cumMonth leap mo2 := by
  have h1b : mo1 ≤ 12 := by omega
  interval_cases mo1 <;> interval_cases mo2 <;> cases leap <;> decide

theorem inYear_le (leap : Bool) {mo dy : Nat} (h1 : 1 ≤ mo) (h2 : mo ≤ 12)
    (h3 : 1 ≤ dy) (h4 : dy ≤ monthDays leap mo) :
    cumMonth leap mo + (dy - 1) ≤ 364 + (if leap = true then 1 else 0) := by
  interval_cases mo <;> cases leap <;>
    simp [monthDays, cumMonth, cumMonthBase] at h4 ⊢ <;> omega

theorem leapsBefore_succ (y : Nat) :
    leapsBefore (y + 1) = leapsBefore y + (if isLeap y = true then 1 else 0) := by
  have hiff : (isLeap y = true) ↔ ((y % 4 = 0 ∧ ¬ y % 100 = 0) ∨ y % 400 = 0) := by
    rw [isLeap]
    simp [Bool.and_eq_true, Bool.or_eq_true, beq_iff_eq]
  by_cases hl : isLeap y = true
  · rw [if_pos hl]
    rw [hiff] at hl
    rw [leapsBefore, leapsBefore]
    omega
  · rw [if_neg hl]
    rw [hiff] at hl
    push_neg at hl
    rw [leapsBefore, leapsBefore]
    omega

theorem daysBeforeYear_succ (y : Nat) :
    daysBeforeYear (y + 1) = daysBeforeYear y + 365 + (if isLeap y = true then 1 else 0) := by
  rw [daysBeforeYear, daysBeforeYear, leapsBefore_succ]
  split <;> omega

theorem daysBeforeYear_mono {y1 y2 : Nat} (h : y1 ≤ y2) :
    daysBeforeYear y1 ≤ daysBeforeYear y2 := by
  rw [daysBeforeYear, daysBeforeYear, leapsBefore, leapsBefore]
  omega

theorem days_lt_of_dateLex {y1 mo1 dy1 y2 mo2 dy2 : Nat}
    (h1a : 1 ≤ mo1) (h1b : mo1 ≤ 12) (h1c : 1 ≤ dy1)
    (h1d : dy1 ≤ monthDays (isLeap y1) mo1)
    (h2a : 1 ≤ mo2) (h2b : mo2 ≤ 12) (h2c : 1 ≤ dy2)
    (h2d : dy2 ≤ monthDays (isLeap y2) mo2)
    (h : y1 < y2 ∨ (y1 = y2 ∧ (mo1 < mo2 ∨ (mo1 = mo2 ∧ dy1 < dy2)))) :
    daysBeforeYear y1 + cumMonth (isLeap y1) mo1 + (dy1 - 1) <
      daysBeforeYear y2 + cumMonth (isLeap y2) mo2 + (dy2 - 1) := by
  rcases h with hy | ⟨hye, h⟩
  · have hin := inYear_le (isLeap y1) h1a h1b h1c h1d
    have hs := daysBeforeYear_succ y1
    have hm := daysBeforeYear_mono (show y1 + 1 ≤ y2 by omega)
    by_cases hL : isLeap y1 = true
    · rw [if_pos hL] at hin hs
      omega
    · rw [if_neg hL] at hin hs
      omega
  · subst hye
    rcases h with hm | ⟨hme, hd⟩
    · have hc := cumMonth_mono (isLeap y1) h1a hm h2b
      omega
    · subst hme
      omega

theorem epochSecs_lt_of_fieldLex {y1 mo1 dy1 h1 mi1 s1 y2 mo2 dy2 h2 mi2 s2 : Nat}
    (hv1 : validDT y1 mo1 dy1 h1 mi1 s1) (hv2 : validDT y2 mo2 dy2 h2 mi2 s2)
    (h : fieldLex ⟨y1, mo1, dy1, h1, mi1, s1⟩ ⟨y2, mo2, dy2, h2, mi2, s2⟩) :
    epochSecs ⟨y1, mo1, dy1, h1, mi1, s1⟩ < epochSecs ⟨y2, mo2, dy2, h2, mi2, s2⟩ := by
  obtain ⟨hy1, hmo1a, hmo1b, hdy1a, hdy1b, hh1, hmi1b, hs1b⟩ := hv1
  obtain ⟨hy2, hmo2a, hmo2b, hdy2a, hdy2b, hh2, hmi2b, hs2b⟩ := hv2
  dsimp only [fieldLex] at h
  rw [epochSecs, epochSecs, epochDays, epochDays]
  dsimp only
  by_cases hdate : y1 < y2 ∨ (y1 = y2 ∧ (mo1 < mo2 ∨ (mo1 = mo2 ∧ dy1 < dy2)))
  · have hd := days_lt_of_dateLex hmo1a hmo1b hdy1a hdy1b hmo2a hmo2b hdy2a hdy2b hdate
    omega
  · have heq : y1 = y2 ∧ mo1 = mo2 ∧ dy1 = dy2 ∧
        (h1 < h2 ∨ (h1 = h2 ∧ (mi1 < mi2 ∨ (mi1 = mi2 ∧ s1 < s2)))) := by
      rcases h with hy | ⟨hye, h⟩
      · exact absurd (Or.inl hy) hdate
      rcases h with hm | ⟨hme, h⟩
      · exact absurd (Or.inr ⟨hye, Or.inl hm⟩) hdate
      rcases h with hd | ⟨hde, h⟩
      · exact absurd (Or.inr ⟨hye, Or.inr ⟨hme, hd⟩⟩) hdate
      exact ⟨hye, hme, hde, h⟩
    obtain ⟨e1, e2, e3, ht⟩ := heq
    subst e1; subst e2; subst e3
    omega

theorem epochSecs_lt_iff_fieldLex {y1 mo1 dy1 h1 mi1 s1 y2 mo2 dy2 h2 mi2 s2 : Nat}
    (hv1 : validDT y1 mo1 dy1 h1 mi1 s1) (hv2 : validDT y2 mo2 dy2 h2 mi2 s2) :
    epochSecs ⟨y1, mo1, dy1, h1, mi1, s1⟩ < epochSecs ⟨y2, mo2, dy2, h2, mi2, s2⟩ ↔
      fieldLex ⟨y1, mo1, dy1, h1, mi1, s1⟩ ⟨y2, mo2, dy2, h2, mi2, s2⟩ := by
  constructor
  · intro hlt
    have htri : fieldLex ⟨y1, mo1, dy1, h1, mi1, s1⟩ ⟨y2, mo2, dy2, h2, mi2, s2⟩ ∨
        (y1 = y2 ∧ mo1 = mo2 ∧ dy1 = dy2 ∧ h1 = h2 ∧ mi1 = mi2 ∧ s1 = s2) ∨
        fieldLex ⟨y2, mo2, dy2, h2, mi2, s2⟩ ⟨y1, mo1, dy1, h1, mi1, s1⟩ := by
      dsimp only [fieldLex]
      omega
    rcases htri with h | h | h
    · exact h
    · obtain ⟨e1, e2, e3, e4, e5, e6⟩ := h
      subst e1; subst e2; subst e3; subst e4; subst e5; subst e6
      exact absurd hlt (lt_irrefl _)
    · exact absurd hlt (lt_asymm (epochSecs_lt_of_fieldLex hv2 hv1 h))
  · exact epochSecs_lt_of_fieldLex hv1 hv2

/-- C7 (corrected): the claim as stated is false for arbitrary parseable
identifiers (see the counterexample: the non-zero-padded name
`"2010115-000000"` parses but breaks the lexical/value agreement).  The
amended claim: (A) for all parseable identifiers the value ordering
coincides with the ordering of the parsed epoch instants, and (B) for
identifiers in the canonical `%Y%m%d-%H%M%S` rendering of real calendar
date-times the lexical string ordering coincides with the value
ordering. -/
theorem claim_C7 :
    (∀ (a b : String) (ta tb : ℤ) (va vb : ℝ),
        instant a = some ta → instant b = some tb →
        timef a = some va → timef b = some vb → (va < vb ↔ ta < tb)) ∧
    (∀ y1 mo1 dy1 h1 mi1 s1 y2 mo2 dy2 h2 mi2 s2 : Nat,
        validDT y1 mo1 dy1 h1 mi1 s1 → validDT y2 mo2 dy2 h2 mi2 s2 →
        ∀ va vb : ℝ,
          timef (render y1 mo1 dy1 h1 mi1 s1) = some va →
          timef (render y2 mo2 dy2 h2 mi2 s2) = some vb →
          (render y1 mo1 dy1 h1 mi1 s1 < render y2 mo2 dy2 h2 mi2 s2 ↔ va < vb)) := by
  constructor
  · intro a b ta tb va vb hia hib hva hvb
    rw [timef_eq_of_instant hia] at hva
    rw [timef_eq_of_instant hib] at hvb
    injection hva with e1
    injection hvb with e2
    subst e1; subst e2
    exact valueOfInstant_lt_iff
  · intro y1 mo1 dy1 h1 mi1 s1 y2 mo2 dy2 h2 mi2 s2 hv1 hv2 va vb hva hvb
    rw [timef_eq_of_instant (instant_render y1 mo1 dy1 h1 mi1 s1 hv1)] at hva
    rw [timef_eq_of_instant (instant_render y2 mo2 dy2 h2 mi2 s2 hv2)] at hvb
    injection hva with e1
    injection hvb with e2
    subst e1; subst e2
    rw [render_lt_iff_fieldLex hv1 hv2, ← epochSecs_lt_iff_fieldLex hv1 hv2,
      valueOfInstant_lt_iff]

/-- Closed witness for the corrected C7, at midnight and 1 am of
2010-12-01. -/
theorem claim_C7_witness :
    (valueOfInstant 1291161600 < valueOfInstant 1291165200 ↔
      (1291161600 : ℤ) < 1291165200) ∧
    (render 2010 12 1 0 0 0 < render 2010 12 1 1 0 0 ↔
      valueOfInstant (epochSecs ⟨2010, 12, 1, 0, 0, 0⟩) <
        valueOfInstant (epochSecs ⟨2010, 12, 1, 1, 0, 0⟩)) := by
  constructor
  · exact claim_C7.1 "20101201-000000" "20101201-010000" 1291161600 1291165200 _ _
      (by decide) (by decide)
      (timef_eq_of_instant (by decide)) (timef_eq_of_instant (by decide))
  · exact claim_C7.2 2010 12 1 0 0 0 2010 12 1 1 0 0
      (by unfold validDT; decide) (by unfold validDT; decide) _ _
      (timef_eq_of_instant (instant_render 2010 12 1 0 0 0 (by unfold validDT; decide)))
      (timef_eq_of_instant (instant_render 2010 12 1 1 0 0 (by unfold validDT; decide)))
